import Mathlib

/-!
# Verification of the `bdk_testenv` crate (`crates/testenv/src/lib.rs`)

A shallow embedding of the `TestEnv` regtest harness: the empty-block miner
(`mine_empty_block`), the reorg manager (`invalidate_blocks`, `reorg`,
`reorg_empty_blocks`), the two sync pollers (`wait_until_electrum_sees_block`,
`wait_until_electrum_sees_txid`) and the checkpoint builder
(`make_checkpoint_tip`).

External services (bitcoind's RPC responses, electrs) and external library
primitives (SHA-256 based hashing, the script builder's integer encoding, the
consensus codec) are modelled explicitly: hash functions are abstract
parameters, RPC responses are drawn from explicit oracles or from a node-state
model, and byte-level encoders follow the documented semantics of the
libraries the crate calls.

Bytes are `Nat` below `256`, hashes and 32-bit words are `Nat` with explicit
`% 2^32` where Rust truncates.
-/

namespace BdkTestEnv

/-! ## Script integer encoding

Models rust-bitcoin's `script::Builder::push_int` (called by
`mine_empty_block` to build the coinbase script-sig, lib.rs lines 161-165):
`-1` and `1..=16` become the one-byte opcodes `OP_1NEGATE` / `OP_1..OP_16`,
`0` becomes `OP_0`, and any other integer is pushed as a minimal
little-endian sign-and-magnitude byte string preceded by its length byte. -/

/-- Little-endian base-256 digits of a natural number, least significant
first, with no trailing zero digit (`[]` for `0`). -/
def natLEBytes (n : Nat) : List Nat :=
  if h : n = 0 then []
  else (n % 256) :: natLEBytes (n / 256)
decreasing_by exact Nat.div_lt_self (Nat.pos_of_ne_zero h) (by omega)

/-- Value of a little-endian base-256 digit list. -/
def leVal (bs : List Nat) : Nat :=
  bs.foldr (fun b acc => b + 256 * acc) 0

/-- Set the sign bit in (or append a sign byte after) the most significant
byte of a little-endian magnitude, as rust-bitcoin's `build_scriptint` does
after collecting the magnitude bytes. -/
def adjustMSB (neg : Bool) : List Nat → List Nat
  | [] => []
  | [d] =>
    if 128 ≤ d then [d, if neg then 128 else 0]
    else [if neg then d + 128 else d]
  | b :: c :: rest => b :: adjustMSB neg (c :: rest)

/-- The byte content of rust-bitcoin's `build_scriptint`: minimal
little-endian magnitude with a sign bit (or sign byte) at the top. -/
def scriptIntBytes (n : Int) : List Nat :=
  adjustMSB (decide (n < 0)) (natLEBytes n.natAbs)

/-- The full script emitted by `Builder::push_int data`: special opcodes for
`-1`, `0` and `1..=16`, otherwise a length byte followed by the scriptint
bytes (always fewer than `0x4c` of them for 64-bit inputs). -/
def pushIntScript (n : Int) : List Nat :=
  if n = -1 then [0x4f]
  else if 1 ≤ n ∧ n ≤ 16 then [0x50 + n.toNat]
  else if n = 0 then [0x00]
  else (scriptIntBytes n).length :: scriptIntBytes n

/-! ### Round-trip decoder for scriptint, used to prove injectivity. -/

/-- Decode a scriptint byte string: the top bit of the last byte is the
sign, the remaining bits the little-endian magnitude. -/
def scriptIntDecode (v : List Nat) : Int :=
  match v.getLast? with
  | none => 0
  | some d =>
    let mag : Nat := leVal (v.dropLast ++ [d % 128])
    if 128 ≤ d then -(mag : Int) else (mag : Int)

theorem leVal_nil : leVal [] = 0 := rfl

theorem leVal_cons (b : Nat) (bs : List Nat) :
    leVal (b :: bs) = b + 256 * leVal bs := rfl

theorem leVal_natLEBytes (n : Nat) : leVal (natLEBytes n) = n := by
  induction n using Nat.strong_induction_on with
  | _ n ih =>
    rw [natLEBytes]
    by_cases h : n = 0
    · simp [h, leVal_nil]
    · rw [dif_neg h, leVal_cons, ih (n / 256) (Nat.div_lt_self (Nat.pos_of_ne_zero h) (by omega))]
      omega

theorem natLEBytes_eq_nil_iff (n : Nat) : natLEBytes n = [] ↔ n = 0 := by
  constructor
  · intro h
    by_contra hn
    rw [natLEBytes, dif_neg hn] at h
    exact List.cons_ne_nil _ _ h
  · intro h; rw [h, natLEBytes]; simp

theorem natLEBytes_lt (n : Nat) : ∀ d ∈ natLEBytes n, d < 256 := by
  induction n using Nat.strong_induction_on with
  | _ n ih =>
    intro d hd
    rw [natLEBytes] at hd
    by_cases h : n = 0
    · simp [h] at hd
    · rw [dif_neg h] at hd
      rcases List.mem_cons.mp hd with h1 | h2
      · subst h1; exact Nat.mod_lt _ (by omega)
      · exact ih (n / 256) (Nat.div_lt_self (Nat.pos_of_ne_zero h) (by omega)) d h2

theorem leVal_append_last (xs : List Nat) (a : Nat) :
    leVal (xs ++ [a]) = leVal xs + a * 256 ^ xs.length := by
  induction xs with
  | nil => simp [leVal_nil, leVal_cons]
  | cons b bs ih =>
    rw [List.cons_append, leVal_cons, leVal_cons, ih, List.length_cons, pow_succ]
    ring

theorem adjustMSB_append (neg : Bool) (init : List Nat) (d : Nat) :
    adjustMSB neg (init ++ [d]) =
      init ++ (if 128 ≤ d then [d, if neg then 128 else 0]
               else [if neg then d + 128 else d]) := by
  induction init with
  | nil => simp [adjustMSB]
  | cons b rest ih =>
    cases rest with
    | nil => simp only [List.cons_append, List.nil_append, adjustMSB]
    | cons x xs =>
      simp only [List.cons_append] at ih ⊢
      rw [adjustMSB, ih]

theorem adjustMSB_ne_nil (neg : Bool) (v : List Nat) (hv : v ≠ []) :
    adjustMSB neg v ≠ [] := by
  rcases v.eq_nil_or_concat' with rfl | ⟨init, d, rfl⟩
  · exact absurd rfl hv
  · rw [adjustMSB_append]
    split_ifs <;> simp

theorem scriptIntDecode_concat (xs : List Nat) (a : Nat) :
    scriptIntDecode (xs ++ [a]) =
      if 128 ≤ a then -(leVal (xs ++ [a % 128]) : Int)
      else (leVal (xs ++ [a % 128]) : Int) := by
  unfold scriptIntDecode
  rw [List.getLast?_concat, List.dropLast_concat]

theorem adjustMSB_hi_t (init : List Nat) (d : Nat) (hd : 128 ≤ d) :
    adjustMSB true (init ++ [d]) = (init ++ [d]) ++ [128] := by
  rw [adjustMSB_append]
  simp [hd]

theorem adjustMSB_hi_f (init : List Nat) (d : Nat) (hd : 128 ≤ d) :
    adjustMSB false (init ++ [d]) = (init ++ [d]) ++ [0] := by
  rw [adjustMSB_append]
  simp [hd]

theorem adjustMSB_lo_t (init : List Nat) (d : Nat) (hd : ¬128 ≤ d) :
    adjustMSB true (init ++ [d]) = init ++ [d + 128] := by
  rw [adjustMSB_append]
  simp [hd]

theorem adjustMSB_lo_f (init : List Nat) (d : Nat) (hd : ¬128 ≤ d) :
    adjustMSB false (init ++ [d]) = init ++ [d] := by
  rw [adjustMSB_append]
  simp [hd]

theorem scriptIntDecode_scriptIntBytes (n : Int) (hn : n ≠ 0) :
    scriptIntDecode (scriptIntBytes n) = n := by
  have hm : n.natAbs ≠ 0 := fun h => hn (Int.natAbs_eq_zero.mp h)
  rcases (natLEBytes n.natAbs).eq_nil_or_concat' with hnil | ⟨init, d, hsplit⟩
  · exact absurd ((natLEBytes_eq_nil_iff _).mp hnil) hm
  have hdlt : d < 256 := natLEBytes_lt n.natAbs d (hsplit ▸ List.mem_append_right _ (by simp))
  have hval : leVal init + d * 256 ^ init.length = n.natAbs := by
    have := leVal_natLEBytes n.natAbs
    rw [hsplit, leVal_append_last] at this
    exact this
  unfold scriptIntBytes
  rw [hsplit]
  by_cases hneg : n < 0
  · rw [show decide (n < 0) = true from decide_eq_true hneg]
    by_cases hd : 128 ≤ d
    · rw [adjustMSB_hi_t init d hd, scriptIntDecode_concat,
        if_pos (le_refl 128), show (128 : Nat) % 128 = 0 from rfl,
        leVal_append_last, leVal_append_last]
      simp only [Nat.zero_mul, Nat.add_zero]
      rw [hval]
      omega
    · rw [adjustMSB_lo_t init d hd, scriptIntDecode_concat,
        if_pos (show 128 ≤ d + 128 by omega),
        show (d + 128) % 128 = d % 128 by omega,
        Nat.mod_eq_of_lt (by omega), leVal_append_last, hval]
      omega
  · rw [show decide (n < 0) = false from decide_eq_false hneg]
    by_cases hd : 128 ≤ d
    · rw [adjustMSB_hi_f init d hd, scriptIntDecode_concat,
        if_neg (show ¬(128 ≤ 0) by omega), Nat.zero_mod,
        leVal_append_last, leVal_append_last]
      simp only [Nat.zero_mul, Nat.add_zero]
      rw [hval]
      omega
    · rw [adjustMSB_lo_f init d hd, scriptIntDecode_concat,
        if_neg hd, Nat.mod_eq_of_lt (by omega), leVal_append_last, hval]
      omega

theorem scriptIntBytes_inj {a b : Int} (ha : a ≠ 0) (hb : b ≠ 0)
    (h : scriptIntBytes a = scriptIntBytes b) : a = b := by
  have := scriptIntDecode_scriptIntBytes a ha
  rw [h, scriptIntDecode_scriptIntBytes b hb] at this
  exact this.symm

theorem scriptIntBytes_ne_nil (n : Int) (hn : n ≠ 0) : scriptIntBytes n ≠ [] := by
  unfold scriptIntBytes
  exact adjustMSB_ne_nil _ _ (fun h =>
    hn (Int.natAbs_eq_zero.mp ((natLEBytes_eq_nil_iff _).mp h)))

theorem pushIntScript_inj {a b : Int} (h : pushIntScript a = pushIntScript b) :
    a = b := by
  unfold pushIntScript at h
  split_ifs at h with h1 h2 h3 h4 h5 h6 h7 h8 h9 h10 h11 h12 h13 h14 h15 <;>
    first
      | omega
      | (simp only [List.cons.injEq] at h; omega)
      | (exact absurd h.symm (by
          simp only [List.cons.injEq, not_and]
          intro _
          exact (scriptIntBytes_ne_nil _ (by omega)).symm ∘ Eq.symm))
      | (exact absurd h (by
          simp only [List.cons.injEq, not_and]
          intro _
          exact (scriptIntBytes_ne_nil _ (by omega)).symm ∘ Eq.symm))
      | (simp only [List.cons.injEq] at h
         exact scriptIntBytes_inj (by omega) (by omega) h.2)

/-! ## Transaction and block data model

Mirrors the rust-bitcoin structures used by `mine_empty_block`
(lib.rs lines 156-212). Hashes, txids and 32-bit words are `Nat`;
scripts are byte lists. -/

structure OutPoint where
  txid : Nat
  vout : Nat
deriving DecidableEq, Repr

/-- `OutPoint::default()`: the null outpoint (all-zeros txid, `u32::MAX` vout). -/
def nullOutPoint : OutPoint := ⟨0, 4294967295⟩

structure TxIn where
  previous_output : OutPoint
  script_sig : List Nat
  sequence : Nat
  witness : List (List Nat)
deriving DecidableEq, Repr

structure TxOut where
  value : Nat
  script_pubkey : List Nat
deriving DecidableEq, Repr

structure Transaction where
  version : Nat
  lock_time : Nat
  input : List TxIn
  output : List TxOut
deriving DecidableEq, Repr

structure Header where
  version : Nat
  prev_blockhash : Nat
  merkle_root : Nat
  time : Nat
  bits : Nat
  nonce : Nat
deriving DecidableEq, Repr

structure Block where
  header : Header
  txdata : List Transaction
deriving DecidableEq, Repr

/-- `ScriptBuf::new_p2sh(&ScriptHash::all_zeros())`:
`OP_HASH160 OP_PUSHBYTES_20 <20 zero bytes> OP_EQUAL`. -/
def p2shAllZeros : List Nat := 0xa9 :: 0x14 :: (List.replicate 20 0 ++ [0x87])

/-- `block::Version::default()` in rust-bitcoin is
`NO_SOFT_FORK_SIGNALLING` = `0x20000000`. -/
def defaultBlockVersion : Nat := 0x20000000

/-- `Sequence::default()` in rust-bitcoin is `Sequence::MAX` = `0xFFFFFFFF`. -/
def defaultSequence : Nat := 4294967295

/-- Rust `u64 as i64` cast (two's-complement reinterpretation), applied to
the template height in `push_int(bt.height as _)`. -/
def i64OfU64 (h : Nat) : Int :=
  if h % 2 ^ 64 < 2 ^ 63 then ((h % 2 ^ 64 : Nat) : Int)
  else ((h % 2 ^ 64 : Nat) : Int) - 2 ^ 64

/-- The single coinbase-style transaction `mine_empty_block` builds
(lib.rs lines 156-173): version 1, lock time 0, one input spending the null
outpoint with script-sig `push_int(height); push_int(random)`, default
sequence, empty witness; one zero-value output paying p2sh of the all-zeros
script hash. -/
def mkCoinbaseTx (height : Nat) (r : Int) : Transaction where
  version := 1
  lock_time := 0
  input := [{ previous_output := nullOutPoint
              script_sig := pushIntScript (i64OfU64 height) ++ pushIntScript r
              sequence := defaultSequence
              witness := [] }]
  output := [{ value := 0, script_pubkey := p2shAllZeros }]

/-! ## Hex and consensus decoding of the `bits` field

`mine_empty_block` runs
`consensus::encode::deserialize_hex::<Vec<u8>>(&bt.bits)` (lib.rs 175-179):
hex-decode the string, then consensus-decode a `Vec<u8>` — a compact-size
length prefix followed by exactly that many bytes — requiring the whole
input to be consumed. -/

def hexDigitVal (c : Char) : Option Nat :=
  if '0' ≤ c ∧ c ≤ '9' then some (c.toNat - '0'.toNat)
  else if 'a' ≤ c ∧ c ≤ 'f' then some (c.toNat - 'a'.toNat + 10)
  else if 'A' ≤ c ∧ c ≤ 'F' then some (c.toNat - 'A'.toNat + 10)
  else none

def hexDecodeList : List Char → Option (List Nat)
  | [] => some []
  | [_] => none
  | c1 :: c2 :: rest => do
    let hi ← hexDigitVal c1
    let lo ← hexDigitVal c2
    let tail ← hexDecodeList rest
    pure ((16 * hi + lo) :: tail)

/-- Bitcoin compact-size (`VarInt`) decoding with the non-minimal-encoding
check rust-bitcoin performs; returns the value and the remaining bytes. -/
def readVarInt : List Nat → Option (Nat × List Nat)
  | [] => none
  | b :: rest =>
    if b < 0xFD then some (b, rest)
    else if b = 0xFD then
      match rest with
      | l0 :: l1 :: r =>
        let v := l0 + 256 * l1
        if 0xFD ≤ v then some (v, r) else none
      | _ => none
    else if b = 0xFE then
      match rest with
      | l0 :: l1 :: l2 :: l3 :: r =>
        let v := l0 + 256 * l1 + 65536 * l2 + 16777216 * l3
        if 2 ^ 16 ≤ v then some (v, r) else none
      | _ => none
    else
      match rest with
      | l0 :: l1 :: l2 :: l3 :: l4 :: l5 :: l6 :: l7 :: r =>
        let v := l0 + 2 ^ 8 * l1 + 2 ^ 16 * l2 + 2 ^ 24 * l3 + 2 ^ 32 * l4
          + 2 ^ 40 * l5 + 2 ^ 48 * l6 + 2 ^ 56 * l7
        if 2 ^ 32 ≤ v then some (v, r) else none
      | _ => none

/-- Consensus decode of `Vec<u8>` from a byte list, with rust-bitcoin's
4,000,000-byte allocation cap, requiring full consumption of the input
(as `deserialize`/`deserialize_hex` do). -/
def consensusDecodeVecU8 (bs : List Nat) : Option (List Nat) := do
  let (n, rest) ← readVarInt bs
  if n ≤ 4000000 ∧ rest.length = n then some rest else none

/-- `consensus::encode::deserialize_hex::<Vec<u8>>`. -/
def deserializeHexVecU8 (s : String) : Option (List Nat) := do
  let bytes ← hexDecodeList s.data
  consensusDecodeVecU8 bytes

/-- `u32::from_be_bytes` on a 4-byte list. -/
def beU32 (l : List Nat) : Nat :=
  l.foldl (fun acc b => 256 * acc + b) 0

/-- rust-bitcoin `Target::from_compact`: mantissa is the low 23 bits of the
low 24 bits, exponent the top byte; a set sign bit gives target zero; the
result lives in a 256-bit word, hence the `% 2 ^ 256`. -/
def compactToTarget (c : Nat) : Nat :=
  let mant := c % 2 ^ 24
  let expt := c / 2 ^ 24
  if 0x7FFFFF < mant then 0
  else if expt ≤ 3 then mant / 2 ^ (8 * (3 - expt))
  else mant * 2 ^ (8 * (expt - 3)) % 2 ^ 256

/-! ## Proof-of-work search

`for nonce in 0..=u32::MAX { block.header.nonce = nonce; if met { break } }`
(lib.rs 195-200). The loop tries nonces `0, 1, …` for `2^32` iterations; on
exhaustion the header keeps the last assigned nonce, `u32::MAX`. -/

def findNonceAux (met : Nat → Bool) : Nat → Nat → Option Nat
  | 0, _ => none
  | fuel + 1, n => if met n then some n else findNonceAux met fuel (n + 1)

def findNonce (met : Nat → Bool) : Option Nat := findNonceAux met (2 ^ 32) 0

/-! ## `mine_empty_block` -/

/-- The minimal template model the crate deserializes from
`getblocktemplate` (lib.rs 54-68). -/
structure BlockTemplate where
  bits : String
  previous_block_hash : Nat
  height : Nat
  min_time : Nat

inductive MineErr where
  | decodeErr
  | submitReturned (payload : String)
  | submitRpc (msg : String)
deriving DecidableEq, Repr

/-- Outcome of a Rust call that can also `panic!`/`expect`. -/
inductive RResult (ε : Type) (α : Type) where
  | ok (a : α)
  | err (e : ε)
  | fatal (msg : String)
deriving DecidableEq, Repr

/-- The node's response to the raw `submitblock` RPC (lib.rs 202-210):
JSON `null` on acceptance, a non-null payload on rejection, or an RPC-level
error. -/
inductive NodeSubmitResp where
  | nullVal
  | value (s : String)
  | rpcError (s : String)
deriving DecidableEq, Repr

/-- The predicate the proof-of-work loop tests at a candidate nonce:
`block.header.target().is_met_by(block.block_hash())`, i.e. the header's
hash (as a 256-bit number) is at most the target decoded from `bits`. -/
def nonceMet (hf : Header → Nat) (header1 : Header) (bits : Nat) (n : Nat) : Bool :=
  decide (hf { header1 with nonce := n } ≤ compactToTarget bits)

/-- The header `mine_empty_block` builds before the nonce search
(lib.rs 181-193): default version, previous hash from the template,
timestamp `max(min_time, now)` truncated to 32 bits, `bits` decoded
big-endian, merkle root computed over the singleton txdata
(the code first stores `TxMerkleNode::all_zeros` and immediately
overwrites it at line 193), nonce initialized to `0`. -/
def mineHeader1 (mf : List Transaction → Nat) (bt : BlockTemplate)
    (now : Nat) (r : Int) (bits : Nat) : Header where
  version := defaultBlockVersion
  prev_blockhash := bt.previous_block_hash
  merkle_root := mf [mkCoinbaseTx bt.height r]
  time := max bt.min_time now % 2 ^ 32
  bits := bits
  nonce := 0

/-- The block `mine_empty_block` constructs from a template whose `bits`
decoded to the 4-byte vector `v` (lib.rs 156-200): the singleton coinbase
txdata under `mineHeader1`, with the nonce the `for` loop leaves behind —
the first satisfying one, or `u32::MAX` when the whole 32-bit range is
exhausted without success. -/
def minedBlock (mf : List Transaction → Nat) (hf : Header → Nat)
    (bt : BlockTemplate) (now : Nat) (r : Int) (v : List Nat) : Block :=
  let bits := beU32 v
  let nonce :=
    (findNonce (nonceMet hf (mineHeader1 mf bt now r bits) bits)).getD (2 ^ 32 - 1)
  { header := { mineHeader1 mf bt now r bits with nonce := nonce }
    txdata := [mkCoinbaseTx bt.height r] }

/-- Shallow embedding of `TestEnv::mine_empty_block` (lib.rs 152-212),
starting from a successfully fetched template `bt`. `mf` models
`Block::compute_merkle_root` (total here: the txdata is the nonempty
singleton, so the Rust `expect("must compute")` never fires), `hf` models
`block_hash()` (double SHA-256 of the serialized header), `node` the node's
`submitblock` response, `now` the clock reading
`UNIX_EPOCH.elapsed()?.as_secs()` and `r` the `random()` draw. Returns the
call's result together with the list of blocks submitted to the node. -/
def mineEmptyBlockRun (mf : List Transaction → Nat) (hf : Header → Nat)
    (node : Block → NodeSubmitResp) (bt : BlockTemplate) (now : Nat) (r : Int) :
    RResult MineErr (Nat × Nat) × List Block :=
  match deserializeHexVecU8 bt.bits with
  | none => (.err .decodeErr, [])
  | some v =>
    if v.length = 4 then
      let block := minedBlock mf hf bt now r v
      match node block with
      | .nullVal => (.ok (bt.height, hf block.header), [block])
      | .value s => (.err (.submitReturned s), [block])
      | .rpcError s => (.err (.submitRpc s), [block])
    else
      (.fatal "rpc provided us with invalid bits", [])

/-! ### Properties of the nonce search -/

theorem findNonceAux_eq_none (met : Nat → Bool) (h : ∀ n, met n = false) :
    ∀ fuel k, findNonceAux met fuel k = none := by
  intro fuel
  induction fuel with
  | zero => intro k; rfl
  | succ f ih =>
    intro k
    rw [findNonceAux, h k]
    exact ih (k + 1)

theorem findNonceAux_some_spec (met : Nat → Bool) :
    ∀ fuel k n, findNonceAux met fuel k = some n →
      met n = true ∧ k ≤ n ∧ n < k + fuel ∧ ∀ m, k ≤ m → m < n → met m = false := by
  intro fuel
  induction fuel with
  | zero => intro k n h; exact absurd h (by rw [findNonceAux]; exact Option.noConfusion)
  | succ f ih =>
    intro k n h
    rw [findNonceAux] at h
    by_cases hk : met k = true
    · rw [if_pos hk] at h
      cases h
      exact ⟨hk, le_refl _, by omega, fun m h1 h2 => absurd (lt_of_le_of_lt h1 h2) (lt_irrefl _)⟩
    · rw [if_neg hk] at h
      obtain ⟨h1, h2, h3, h4⟩ := ih (k + 1) n h
      refine ⟨h1, by omega, by omega, ?_⟩
      intro m hm1 hm2
      rcases eq_or_lt_of_le hm1 with rfl | hlt
      · exact Bool.not_eq_true _ ▸ eq_false_of_ne_true hk
      · exact h4 m (by omega) hm2

theorem findNonceAux_isSome (met : Nat → Bool) :
    ∀ fuel k n, k ≤ n → n < k + fuel → met n = true →
      (findNonceAux met fuel k).isSome = true := by
  intro fuel
  induction fuel with
  | zero => intro k n h1 h2; omega
  | succ f ih =>
    intro k n h1 h2 h3
    rw [findNonceAux]
    by_cases hk : met k = true
    · rw [if_pos hk]; rfl
    · rw [if_neg hk]
      rcases eq_or_lt_of_le h1 with rfl | hlt
      · exact absurd h3 hk
      · exact ih (k + 1) n (by omega) (by omega) h3

theorem findNonce_eq_none (met : Nat → Bool) (h : ∀ n, met n = false) :
    findNonce met = none :=
  findNonceAux_eq_none met h (2 ^ 32) 0

theorem findNonce_least (met : Nat → Bool) (n : Nat) (hn : n < 2 ^ 32)
    (hmet : met n = true) :
    ∃ n0, findNonce met = some n0 ∧ met n0 = true ∧ n0 ≤ n ∧
      ∀ m, m < n0 → met m = false := by
  have hs := findNonceAux_isSome met (2 ^ 32) 0 n (Nat.zero_le n) (by omega) hmet
  obtain ⟨n0, h0⟩ := Option.isSome_iff_exists.mp hs
  obtain ⟨m1, _, _, m4⟩ := findNonceAux_some_spec met (2 ^ 32) 0 n0 h0
  refine ⟨n0, h0, m1, ?_, fun m hm => m4 m (Nat.zero_le m) hm⟩
  by_contra hlt
  push_neg at hlt
  have hfalse := m4 n (Nat.zero_le n) hlt
  rw [hmet] at hfalse
  exact Bool.noConfusion hfalse

/-- Unfolding of `mineEmptyBlockRun` once the `bits` field has decoded to a
4-byte vector: the mined block is submitted and the result follows the
node's `submitblock` response. -/
theorem mineEmptyBlockRun_eq_of_decode (mf : List Transaction → Nat)
    (hf : Header → Nat) (node : Block → NodeSubmitResp) (bt : BlockTemplate)
    (now : Nat) (r : Int) (v : List Nat)
    (hv : deserializeHexVecU8 bt.bits = some v) (hlen : v.length = 4) :
    mineEmptyBlockRun mf hf node bt now r =
      (match node (minedBlock mf hf bt now r v) with
       | .nullVal =>
         (.ok (bt.height, hf (minedBlock mf hf bt now r v).header),
          [minedBlock mf hf bt now r v])
       | .value s => (.err (.submitReturned s), [minedBlock mf hf bt now r v])
       | .rpcError s => (.err (.submitRpc s), [minedBlock mf hf bt now r v])) := by
  unfold mineEmptyBlockRun
  rw [hv]
  simp [hlen]

/-- Whatever the node answers, the block submitted in the decoded branch is
exactly the mined block. -/
theorem mineEmptyBlockRun_submits (mf : List Transaction → Nat)
    (hf : Header → Nat) (node : Block → NodeSubmitResp) (bt : BlockTemplate)
    (now : Nat) (r : Int) (v : List Nat)
    (hv : deserializeHexVecU8 bt.bits = some v) (hlen : v.length = 4) :
    (mineEmptyBlockRun mf hf node bt now r).2 = [minedBlock mf hf bt now r v] := by
  rw [mineEmptyBlockRun_eq_of_decode mf hf node bt now r v hv hlen]
  cases node (minedBlock mf hf bt now r v) <;> rfl

instance : Inhabited OutPoint := ⟨nullOutPoint⟩

instance : Inhabited TxIn := ⟨⟨nullOutPoint, [], 0, []⟩⟩

instance : Inhabited Transaction := ⟨⟨0, 0, [], []⟩⟩

/-- C1: for every mempool state, a successful `mine_empty_block()` call
submits exactly one block, whose transaction list is exactly the one
constructed coinbase-style transaction — one input spending the null
outpoint with a script-sig pushing the template height as a script integer
followed by the random integer, one zero-value output paying p2sh of the
all-zeros script hash — and no transaction whose inputs all spend real
(non-null) outpoints, in particular no mempool transaction, is in it. -/
theorem mine_empty_block_submits_only_coinbase
    (mf : List Transaction → Nat) (hf : Header → Nat)
    (node : Block → NodeSubmitResp) (bt : BlockTemplate) (now : Nat) (r : Int)
    (out : Nat × Nat) (subs : List Block)
    (h : mineEmptyBlockRun mf hf node bt now r = (.ok out, subs)) :
    ∃ b, subs = [b] ∧
      b.txdata = [{ version := 1, lock_time := 0,
                    input := [{ previous_output := nullOutPoint,
                                script_sig := pushIntScript (i64OfU64 bt.height)
                                  ++ pushIntScript r,
                                sequence := defaultSequence, witness := [] }],
                    output := [{ value := 0, script_pubkey := p2shAllZeros }] }] ∧
      ∀ (mempool : List Transaction) (tx : Transaction), tx ∈ mempool →
        (∀ i ∈ tx.input, i.previous_output ≠ nullOutPoint) → tx ∉ b.txdata := by
  cases hdec : deserializeHexVecU8 bt.bits with
  | none =>
    unfold mineEmptyBlockRun at h
    rw [hdec] at h
    simp at h
  | some v =>
    by_cases hlen : v.length = 4
    · rw [mineEmptyBlockRun_eq_of_decode mf hf node bt now r v hdec hlen] at h
      cases hnode : node (minedBlock mf hf bt now r v) <;> rw [hnode] at h
      · simp only [Prod.mk.injEq] at h
        refine ⟨minedBlock mf hf bt now r v, h.2.symm, rfl, ?_⟩
        intro mempool tx _ hin hmem
        have htx : tx = mkCoinbaseTx bt.height r :=
          List.mem_singleton.mp hmem
        subst htx
        exact hin _ (List.mem_singleton.mpr rfl) rfl
      · exact absurd h (by simp)
      · exact absurd h (by simp)
    · unfold mineEmptyBlockRun at h
      rw [hdec] at h
      simp [hlen] at h

theorem mine_empty_block_submits_only_coinbase_witness :
    ∃ b, [minedBlock (fun _ => 7) (fun _ => 0) ⟨"0400000000", 3, 1, 0⟩ 0 5 [0, 0, 0, 0]]
        = [b] ∧
      b.txdata = [{ version := 1, lock_time := 0,
                    input := [{ previous_output := nullOutPoint,
                                script_sig := pushIntScript (i64OfU64 1) ++ pushIntScript 5,
                                sequence := defaultSequence, witness := [] }],
                    output := [{ value := 0, script_pubkey := p2shAllZeros }] }] ∧
      ∀ (mempool : List Transaction) (tx : Transaction), tx ∈ mempool →
        (∀ i ∈ tx.input, i.previous_output ≠ nullOutPoint) → tx ∉ b.txdata :=
  mine_empty_block_submits_only_coinbase (fun _ => 7) (fun _ => 0) (fun _ => .nullVal)
    ⟨"0400000000", 3, 1, 0⟩ 0 5 (1, 0)
    [minedBlock (fun _ => 7) (fun _ => 0) ⟨"0400000000", 3, 1, 0⟩ 0 5 [0, 0, 0, 0]]
    (by decide)

/-- C4: for every template and clock reading, once `bits` decodes to a
4-byte vector `v`, the submitted block's header has the default version,
the template's previous hash, the merkle root computed over its (singleton)
txdata, timestamp `max(min_time, now)` truncated to 32 bits, and difficulty
bits `u32::from_be_bytes(v)`; and whenever some nonce below `2^32`
satisfies the decoded target, the nonce finally used satisfies the target
and is the least satisfying one (the search starts at 0 and stops at the
first hit). -/
theorem mine_empty_block_header_fields
    (mf : List Transaction → Nat) (hf : Header → Nat)
    (node : Block → NodeSubmitResp) (bt : BlockTemplate) (now : Nat) (r : Int)
    (v : List Nat) (hv : deserializeHexVecU8 bt.bits = some v) (hlen : v.length = 4)
    (b : Block) (hb : b ∈ (mineEmptyBlockRun mf hf node bt now r).2) :
    b.header.version = defaultBlockVersion ∧
    b.header.prev_blockhash = bt.previous_block_hash ∧
    b.header.merkle_root = mf b.txdata ∧
    b.header.time = max bt.min_time now % 2 ^ 32 ∧
    b.header.bits = beU32 v ∧
    ∀ n, n < 2 ^ 32 → hf { b.header with nonce := n } ≤ compactToTarget (beU32 v) →
      hf b.header ≤ compactToTarget (beU32 v) ∧ b.header.nonce ≤ n ∧
      ∀ m, m < b.header.nonce →
        ¬ hf { b.header with nonce := m } ≤ compactToTarget (beU32 v) := by
  rw [mineEmptyBlockRun_submits mf hf node bt now r v hv hlen] at hb
  have hbe : b = minedBlock mf hf bt now r v := List.mem_singleton.mp hb
  subst hbe
  refine ⟨rfl, rfl, rfl, rfl, rfl, ?_⟩
  intro n hn hmet
  have hmet' : nonceMet hf (mineHeader1 mf bt now r (beU32 v)) (beU32 v) n = true :=
    decide_eq_true hmet
  obtain ⟨n0, hfind, hmetn0, hle, hleast⟩ :=
    findNonce_least (nonceMet hf (mineHeader1 mf bt now r (beU32 v)) (beU32 v)) n hn hmet'
  have hbh : (minedBlock mf hf bt now r v).header =
      { mineHeader1 mf bt now r (beU32 v) with nonce := n0 } := by
    show ({ mineHeader1 mf bt now r (beU32 v) with
      nonce := (findNonce (nonceMet hf (mineHeader1 mf bt now r (beU32 v))
        (beU32 v))).getD (2 ^ 32 - 1) } : Header) = _
    rw [hfind]
    rfl
  rw [hbh]
  refine ⟨of_decide_eq_true hmetn0, hle, ?_⟩
  intro m hm
  exact of_decide_eq_false (hleast m hm)

theorem mine_empty_block_header_fields_witness :
    (minedBlock (fun _ => 7) (fun _ => 0) ⟨"0400000000", 3, 1, 0⟩ 0 5 [0, 0, 0, 0]).header.version
        = defaultBlockVersion ∧
    (minedBlock (fun _ => 7) (fun _ => 0) ⟨"0400000000", 3, 1, 0⟩ 0 5 [0, 0, 0, 0]).header.prev_blockhash
        = (⟨"0400000000", 3, 1, 0⟩ : BlockTemplate).previous_block_hash ∧
    (minedBlock (fun _ => 7) (fun _ => 0) ⟨"0400000000", 3, 1, 0⟩ 0 5 [0, 0, 0, 0]).header.merkle_root
        = (fun _ => 7 : List Transaction → Nat)
            (minedBlock (fun _ => 7) (fun _ => 0) ⟨"0400000000", 3, 1, 0⟩ 0 5 [0, 0, 0, 0]).txdata ∧
    (minedBlock (fun _ => 7) (fun _ => 0) ⟨"0400000000", 3, 1, 0⟩ 0 5 [0, 0, 0, 0]).header.time
        = max 0 0 % 2 ^ 32 ∧
    (minedBlock (fun _ => 7) (fun _ => 0) ⟨"0400000000", 3, 1, 0⟩ 0 5 [0, 0, 0, 0]).header.bits
        = beU32 [0, 0, 0, 0] ∧
    ∀ n, n < 2 ^ 32 →
      (fun _ => 0 : Header → Nat)
          { (minedBlock (fun _ => 7) (fun _ => 0) ⟨"0400000000", 3, 1, 0⟩ 0 5 [0, 0, 0, 0]).header
            with nonce := n } ≤ compactToTarget (beU32 [0, 0, 0, 0]) →
      (fun _ => 0 : Header → Nat)
          (minedBlock (fun _ => 7) (fun _ => 0) ⟨"0400000000", 3, 1, 0⟩ 0 5 [0, 0, 0, 0]).header
        ≤ compactToTarget (beU32 [0, 0, 0, 0]) ∧
      (minedBlock (fun _ => 7) (fun _ => 0) ⟨"0400000000", 3, 1, 0⟩ 0 5 [0, 0, 0, 0]).header.nonce ≤ n ∧
      ∀ m, m < (minedBlock (fun _ => 7) (fun _ => 0) ⟨"0400000000", 3, 1, 0⟩ 0 5 [0, 0, 0, 0]).header.nonce →
        ¬ (fun _ => 0 : Header → Nat)
            { (minedBlock (fun _ => 7) (fun _ => 0) ⟨"0400000000", 3, 1, 0⟩ 0 5 [0, 0, 0, 0]).header
              with nonce := m } ≤ compactToTarget (beU32 [0, 0, 0, 0]) :=
  mine_empty_block_header_fields (fun _ => 7) (fun _ => 0) (fun _ => .nullVal)
    ⟨"0400000000", 3, 1, 0⟩ 0 5 [0, 0, 0, 0] (by decide) (by decide)
    (minedBlock (fun _ => 7) (fun _ => 0) ⟨"0400000000", 3, 1, 0⟩ 0 5 [0, 0, 0, 0])
    (by rw [mineEmptyBlockRun_submits (fun _ => 7) (fun _ => 0) (fun _ => .nullVal)
          ⟨"0400000000", 3, 1, 0⟩ 0 5 [0, 0, 0, 0] (by decide) (by decide)]
        exact List.mem_singleton.mpr rfl)

/-- C3 counterexample: with a template whose `bits` decode to target zero
and a hash model whose header hash is always `1`, no nonce in
`0..=u32::MAX` satisfies the target; yet `mine_empty_block` does not fail
with any construction error — the search loop merely ends, the header keeps
the last tried nonce `u32::MAX`, and the block IS submitted to the node
(which here even accepts it, so the call returns `Ok`). -/
theorem pow_exhaustion_cex :
    mineEmptyBlockRun (fun _ => 7) (fun _ => 1) (fun _ => .nullVal)
        ⟨"0400000000", 3, 1, 0⟩ 0 5
      = (.ok (1, 1),
         [{ header := { mineHeader1 (fun _ => 7) ⟨"0400000000", 3, 1, 0⟩ 0 5 0
              with nonce := 2 ^ 32 - 1 },
            txdata := [mkCoinbaseTx 1 5] }]) := by
  have hdec : deserializeHexVecU8 "0400000000" = some [0, 0, 0, 0] := by decide
  have hnone : findNonce (nonceMet (fun _ => 1)
      (mineHeader1 (fun _ => 7) ⟨"0400000000", 3, 1, 0⟩ 0 5 (beU32 [0, 0, 0, 0]))
      (beU32 [0, 0, 0, 0])) = none :=
    findNonce_eq_none _ (fun _ => rfl)
  have hblock : minedBlock (fun _ => 7) (fun _ => 1) ⟨"0400000000", 3, 1, 0⟩ 0 5 [0, 0, 0, 0]
      = { header := { mineHeader1 (fun _ => 7) ⟨"0400000000", 3, 1, 0⟩ 0 5 0
            with nonce := 2 ^ 32 - 1 },
          txdata := [mkCoinbaseTx 1 5] } := by
    simp only [minedBlock]
    rw [hnone]
    rfl
  rw [mineEmptyBlockRun_eq_of_decode (fun _ => 7) (fun _ => 1) (fun _ => .nullVal)
    ⟨"0400000000", 3, 1, 0⟩ 0 5 [0, 0, 0, 0] hdec (by decide), hblock]

/-- C3 amended: when no nonce in `0..=u32::MAX` makes the header hash meet
the decoded target, `mine_empty_block` raises no construction error (no such
error path exists): the exhausted loop leaves nonce `u32::MAX` in the header
and the block is submitted to the node unchanged; any failure then comes
from the node's response to `submitblock`, never as a decode error or a
panic. -/
theorem pow_exhaustion_submits_max_nonce
    (mf : List Transaction → Nat) (hf : Header → Nat)
    (node : Block → NodeSubmitResp) (bt : BlockTemplate) (now : Nat) (r : Int)
    (v : List Nat) (hv : deserializeHexVecU8 bt.bits = some v) (hlen : v.length = 4)
    (hnever : ∀ n, ¬ hf { mineHeader1 mf bt now r (beU32 v) with nonce := n }
        ≤ compactToTarget (beU32 v)) :
    (mineEmptyBlockRun mf hf node bt now r).2
        = [{ header := { mineHeader1 mf bt now r (beU32 v) with nonce := 2 ^ 32 - 1 },
             txdata := [mkCoinbaseTx bt.height r] }] ∧
    (∀ s, (mineEmptyBlockRun mf hf node bt now r).1 ≠ .fatal s) ∧
    (mineEmptyBlockRun mf hf node bt now r).1 ≠ .err .decodeErr := by
  have hnone : findNonce (nonceMet hf (mineHeader1 mf bt now r (beU32 v)) (beU32 v)) = none :=
    findNonce_eq_none _ (fun n => decide_eq_false (hnever n))
  have hblock : minedBlock mf hf bt now r v
      = { header := { mineHeader1 mf bt now r (beU32 v) with nonce := 2 ^ 32 - 1 },
          txdata := [mkCoinbaseTx bt.height r] } := by
    simp only [minedBlock]
    rw [hnone]
    rfl
  refine ⟨by rw [mineEmptyBlockRun_submits mf hf node bt now r v hv hlen, hblock], ?_, ?_⟩ <;>
    rw [mineEmptyBlockRun_eq_of_decode mf hf node bt now r v hv hlen] <;>
    cases node (minedBlock mf hf bt now r v) <;> simp

theorem pow_exhaustion_submits_max_nonce_witness :
    (mineEmptyBlockRun (fun _ => 7) (fun _ => 1) (fun _ => .nullVal)
        ⟨"0400000000", 4, 2, 0⟩ 0 9).2
        = [{ header := { mineHeader1 (fun _ => 7) ⟨"0400000000", 4, 2, 0⟩ 0 9 (beU32 [0, 0, 0, 0])
               with nonce := 2 ^ 32 - 1 },
             txdata := [mkCoinbaseTx 2 9] }] ∧
    (∀ s, (mineEmptyBlockRun (fun _ => 7) (fun _ => 1) (fun _ => .nullVal)
        ⟨"0400000000", 4, 2, 0⟩ 0 9).1 ≠ .fatal s) ∧
    (mineEmptyBlockRun (fun _ => 7) (fun _ => 1) (fun _ => .nullVal)
        ⟨"0400000000", 4, 2, 0⟩ 0 9).1 ≠ .err .decodeErr :=
  pow_exhaustion_submits_max_nonce (fun _ => 7) (fun _ => 1) (fun _ => .nullVal)
    ⟨"0400000000", 4, 2, 0⟩ 0 9 [0, 0, 0, 0] (by decide) (by decide)
    (fun _ => of_decide_eq_false rfl)

/-- C8 counterexample: `"00"` is not a valid 4-byte big-endian hex string
(it is a single byte), yet the call does not return a `ConsensusDecodeError`
to the caller: `"00"` consensus-decodes to the empty byte vector, the
`try_into` to `[u8; 4]` fails, and the `expect("rpc provided us with
invalid bits")` panics instead of returning an error. -/
theorem bits_wrong_length_panics_cex :
    mineEmptyBlockRun (fun _ => 7) (fun _ => 0) (fun _ => .nullVal)
        ⟨"00", 3, 1, 0⟩ 0 5
      = (.fatal "rpc provided us with invalid bits", []) := by
  decide

/-- C8 amended: the `bits` field is decoded as a consensus-encoded byte
vector (compact-size length prefix, then the bytes). If hex or consensus
decoding fails — including for a plain 8-hex-digit string, which lacks the
length prefix — the decode error is returned to the caller; if decoding
succeeds but the vector's length is not 4, the call panics
(`expect("rpc provided us with invalid bits")`) rather than returning an
error; if it yields exactly 4 bytes, mining proceeds and the block is
submitted. -/
theorem bits_decode_behavior (mf : List Transaction → Nat) (hf : Header → Nat)
    (node : Block → NodeSubmitResp) (bt : BlockTemplate) (now : Nat) (r : Int) :
    match deserializeHexVecU8 bt.bits with
    | none => mineEmptyBlockRun mf hf node bt now r = (.err .decodeErr, [])
    | some v =>
      if v.length = 4 then
        (mineEmptyBlockRun mf hf node bt now r).2 = [minedBlock mf hf bt now r v]
      else
        mineEmptyBlockRun mf hf node bt now r
          = (.fatal "rpc provided us with invalid bits", []) := by
  cases hdec : deserializeHexVecU8 bt.bits with
  | none =>
    unfold mineEmptyBlockRun
    rw [hdec]
  | some v =>
    show if v.length = 4 then
        (mineEmptyBlockRun mf hf node bt now r).2 = [minedBlock mf hf bt now r v]
      else mineEmptyBlockRun mf hf node bt now r
        = (.fatal "rpc provided us with invalid bits", [])
    by_cases hlen : v.length = 4
    · rw [if_pos hlen]
      exact mineEmptyBlockRun_submits mf hf node bt now r v hdec hlen
    · rw [if_neg hlen]
      unfold mineEmptyBlockRun
      rw [hdec]
      simp [hlen]

/-- C9 counterexample: when the two consecutive draws of the random source
coincide (both are 5) — which the claim's "for all values the random
uniqueness source may produce" allows — the two calls at the same node
state (same template) and clock are the same deterministic computation:
both succeed, and both return the same block hash (here `(1, 0)`). -/
theorem same_random_same_hash_cex :
    mineEmptyBlockRun (fun _ => 7) (fun _ => 0) (fun _ => .nullVal)
        ⟨"0400000000", 3, 1, 0⟩ 0 5
      = mineEmptyBlockRun (fun _ => 7) (fun _ => 0) (fun _ => .nullVal)
        ⟨"0400000000", 3, 1, 0⟩ 0 5
    ∧ (mineEmptyBlockRun (fun _ => 7) (fun _ => 0) (fun _ => .nullVal)
        ⟨"0400000000", 3, 1, 0⟩ 0 5).1 = .ok (1, 0) :=
  ⟨rfl, by decide⟩

/-- C9 amended: two consecutive `mine_empty_block()` calls at the same node
state never submit the same block provided the two random draws differ
(regardless of the clock readings and of the node's responses): the
script-integer encoding of the random value is injective, so the two
coinbase script-sigs — and hence the submitted blocks — differ. Distinct
blocks have distinct hashes up to collisions of the double-SHA-256 block
hash; with equal draws the calls coincide (see the counterexample). -/
theorem distinct_random_distinct_blocks
    (mf : List Transaction → Nat) (hf : Header → Nat)
    (node1 node2 : Block → NodeSubmitResp) (bt : BlockTemplate)
    (now1 now2 : Nat) (r1 r2 : Int) (v : List Nat)
    (hv : deserializeHexVecU8 bt.bits = some v) (hlen : v.length = 4)
    (hr : r1 ≠ r2) :
    ∀ b1 ∈ (mineEmptyBlockRun mf hf node1 bt now1 r1).2,
    ∀ b2 ∈ (mineEmptyBlockRun mf hf node2 bt now2 r2).2, b1 ≠ b2 := by
  rw [mineEmptyBlockRun_submits mf hf node1 bt now1 r1 v hv hlen,
    mineEmptyBlockRun_submits mf hf node2 bt now2 r2 v hv hlen]
  intro b1 hb1 b2 hb2
  rw [List.mem_singleton] at hb1 hb2
  subst hb1
  subst hb2
  intro hEq
  have hsig : pushIntScript (i64OfU64 bt.height) ++ pushIntScript r1
      = pushIntScript (i64OfU64 bt.height) ++ pushIntScript r2 :=
    congrArg (fun b => b.txdata.headI.input.headI.script_sig) hEq
  exact hr (pushIntScript_inj (List.append_inj_right hsig rfl))

theorem distinct_random_distinct_blocks_witness :
    minedBlock (fun _ => 7) (fun _ => 0) ⟨"0400000000", 3, 1, 0⟩ 0 5 [0, 0, 0, 0]
      ≠ minedBlock (fun _ => 7) (fun _ => 0) ⟨"0400000000", 3, 1, 0⟩ 0 6 [0, 0, 0, 0] :=
  distinct_random_distinct_blocks (fun _ => 7) (fun _ => 0) (fun _ => .nullVal)
    (fun _ => .nullVal) ⟨"0400000000", 3, 1, 0⟩ 0 0 5 6 [0, 0, 0, 0]
    (by decide) (by decide) (by decide)
    (minedBlock (fun _ => 7) (fun _ => 0) ⟨"0400000000", 3, 1, 0⟩ 0 5 [0, 0, 0, 0])
    (by decide)
    (minedBlock (fun _ => 7) (fun _ => 0) ⟨"0400000000", 3, 1, 0⟩ 0 6 [0, 0, 0, 0])
    (by decide)

/-! ## Node-state model for the chain operations

`invalidate_blocks`, `reorg` and `reorg_empty_blocks` (lib.rs 259-304) are
driven by the node's RPCs. The node's active chain is a hash list (genesis
first, tip last); RPC responses are computed from it, and network-level
failures are injected per call index by a schedule `net` (call `j` reaches
the node iff `net j`). `getblockcount` is `length - 1`. -/

structure NodeSt where
  chain : List Nat
deriving DecidableEq, Repr

def chainHeight (st : NodeSt) : Nat := st.chain.length - 1

inductive RpcErr where
  | network
  | node (msg : String)
deriving DecidableEq, Repr

/-- Failure injection: RPC call number `j` reaches the node only when
`net j` is true; otherwise it fails at the transport level. -/
def callWrap (net : Nat → Bool) (j : Nat) (r : Except RpcErr α) : Except RpcErr α :=
  if net j then r else .error .network

/-- `get_best_block_hash`: the tip hash. -/
def getBestBlockHash (st : NodeSt) : Except RpcErr Nat :=
  match st.chain.getLast? with
  | some h => .ok h
  | none => .error (.node "no chain")

/-- Walk the chain accumulating the previous hash; genesis's previous hash
is the all-zeros hash, modelled as `0`. -/
def prevOf (p : Nat) : List Nat → Nat → Option Nat
  | [], _ => none
  | a :: rest, h => if a = h then some p else prevOf a rest h

/-- `get_block(hash).header.prev_blockhash` on the active chain. -/
def getBlockPrevHash (st : NodeSt) (h : Nat) : Except RpcErr Nat :=
  match prevOf 0 st.chain h with
  | some p => .ok p
  | none => .error (.node "Block not found")

/-- `invalidateblock h`: drop `h` and everything after it from the active
chain; bitcoind refuses to invalidate the genesis block and errors on
unknown hashes. -/
def invalidateBlock (st : NodeSt) (h : Nat) : Except RpcErr NodeSt :=
  match st.chain with
  | [] => .error (.node "Block not found")
  | g :: rest =>
    if h = g then .error (.node "the genesis block cannot be invalidated")
    else if h ∈ rest then .ok ⟨g :: rest.takeWhile (fun z => decide (z ≠ h))⟩
    else .error (.node "Block not found")

/-- The loop body of `TestEnv::invalidate_blocks` (lib.rs 262-271): each
iteration reads the current block's previous hash via `get_block`, then
invalidates the current hash, then advances — two RPC calls per iteration.
Returns the Rust result, the node state when the function returns (errors
do NOT roll back earlier invalidations), and the next call index. -/
def invalidateLoop (net : Nat → Bool) :
    Nat → NodeSt → Nat → Nat → Except RpcErr Unit × NodeSt × Nat
  | 0, st, _, j => (.ok (), st, j)
  | count + 1, st, hash, j =>
    match callWrap net j (getBlockPrevHash st hash) with
    | .error e => (.error e, st, j)
    | .ok prev =>
      match callWrap net (j + 1) (invalidateBlock st hash) with
      | .error e => (.error e, st, j + 1)
      | .ok st' => invalidateLoop net count st' prev (j + 2)

/-- `TestEnv::invalidate_blocks` (lib.rs 260-273): `get_best_block_hash`
(call 0), then `count` invalidation iterations (calls `1 + 2i`, `2 + 2i`). -/
def invalidateBlocksRun (net : Nat → Bool) (st : NodeSt) (count : Nat) :
    Except RpcErr Unit × NodeSt × Nat :=
  match callWrap net 0 (getBestBlockHash st) with
  | .error e => (.error e, st, 0)
  | .ok h => invalidateLoop net count st h 1

/-- Faithful `generatetoaddress` semantics for `mine_blocks`: extend the
active chain by exactly `count` fresh hashes drawn from `freshHash` at the
successive lengths. -/
def genSpec (freshHash : Nat → Nat) : NodeSt → Nat → List Nat × NodeSt :=
  fun st count =>
    let hs := (List.range count).map (fun i => freshHash (st.chain.length + i))
    (hs, ⟨st.chain ++ hs⟩)

/-- `TestEnv::reorg` (lib.rs 277-288): record the starting height, run
`invalidate_blocks(count)` (propagating its error with `?` — without
rollback), then `mine_blocks(count)` (the node's generation behavior is the
parameter `gen`), then `assert_eq!` the final height against the start: on
mismatch the Rust process panics (`fatal`), it does not return an error. -/
def reorgRun (net : Nat → Bool) (gen : NodeSt → Nat → List Nat × NodeSt)
    (st0 : NodeSt) (count : Nat) : RResult RpcErr (List Nat) × NodeSt :=
  match invalidateBlocksRun net st0 count with
  | (.error e, st1, _) => (.err e, st1)
  | (.ok _, st1, _) =>
    match gen st1 count with
    | (hs, st2) =>
      if chainHeight st2 = chainHeight st0 then (.ok hs, st2)
      else (.fatal "reorg should not result in height change", st2)

/-- One `mine_empty_block()` call as seen by the chain model: a result
`(height, hash)` or an error, plus the node-state effect. The faithful
behavior is `mstepSpec`. -/
def mstepSpec (freshHash : Nat → Nat) :
    NodeSt → Except RpcErr (Nat × Nat) × NodeSt :=
  fun st =>
    (.ok (st.chain.length, freshHash st.chain.length),
     ⟨st.chain ++ [freshHash st.chain.length]⟩)

/-- `(0..count).map(|_| mine_empty_block()).collect::<Result<Vec<_>, _>>()`
(lib.rs 295-297): sequential calls, stopping at the first error. -/
def mineEmptyLoop (mstep : NodeSt → Except RpcErr (Nat × Nat) × NodeSt) :
    Nat → NodeSt → Except RpcErr (List (Nat × Nat)) × NodeSt
  | 0, st => (.ok [], st)
  | count + 1, st =>
    match mstep st with
    | (.error e, st') => (.error e, st')
    | (.ok hb, st') =>
      match mineEmptyLoop mstep count st' with
      | (.ok rest, st'') => (.ok (hb :: rest), st'')
      | (.error e, st'') => (.error e, st'')

/-- `TestEnv::reorg_empty_blocks` (lib.rs 291-304): record the starting
height, `invalidate_blocks(count)?`, remine with `count` sequential
`mine_empty_block()` calls collected with `?` (so a mining error returns
before the assert), then `assert_eq!` heights — panic on mismatch. -/
def reorgEmptyRun (net : Nat → Bool)
    (mstep : NodeSt → Except RpcErr (Nat × Nat) × NodeSt)
    (st0 : NodeSt) (count : Nat) : RResult RpcErr (List (Nat × Nat)) × NodeSt :=
  match invalidateBlocksRun net st0 count with
  | (.error e, st1, _) => (.err e, st1)
  | (.ok _, st1, _) =>
    match mineEmptyLoop mstep count st1 with
    | (.error e, st2) => (.err e, st2)
    | (.ok hbs, st2) =>
      if chainHeight st2 = chainHeight st0 then (.ok hbs, st2)
      else (.fatal "reorg should not result in height change", st2)

/-! ### The invalidation loop on a healthy run -/

theorem nodup_concat_not_mem {zs : List Nat} {x : Nat}
    (h : (zs ++ [x]).Nodup) : x ∉ zs := by
  rw [List.nodup_append] at h
  intro hx
  exact h.2.2 hx (List.mem_singleton.mpr rfl)

theorem nodup_concat_nodup {zs : List Nat} {x : Nat}
    (h : (zs ++ [x]).Nodup) : zs.Nodup :=
  (List.nodup_append.mp h).1

theorem take_append_le {l l' : List Nat} {n : Nat} (h : n ≤ l.length) :
    (l ++ l').take n = l.take n := by
  induction l generalizing n with
  | nil =>
    have : n = 0 := by simpa using h
    subst this
    rfl
  | cons a rest ih =>
    cases n with
    | zero => rfl
    | succ m =>
      simp only [List.cons_append, List.take_succ_cons]
      rw [ih (by simpa using h)]

theorem prevOf_concat (x : Nat) :
    ∀ (init : List Nat) (p : Nat), x ∉ init →
      prevOf p (init ++ [x]) x = some (init.getLastD p) := by
  intro init
  induction init with
  | nil => intro p _; simp [prevOf]
  | cons a rest ih =>
    intro p hx
    simp only [List.mem_cons, not_or] at hx
    rw [List.cons_append, prevOf, if_neg (fun h => hx.1 h.symm),
      ih a hx.2, List.getLastD_cons]

theorem takeWhile_ne_concat (x : Nat) :
    ∀ (zs : List Nat), x ∉ zs →
      (zs ++ [x]).takeWhile (fun z => decide (z ≠ x)) = zs := by
  intro zs
  induction zs with
  | nil => intro _; simp [List.takeWhile]
  | cons a rest ih =>
    intro hx
    simp only [List.mem_cons, not_or] at hx
    rw [List.cons_append, List.takeWhile_cons]
    simp only [decide_eq_true_eq]
    rw [if_pos (fun h => hx.1 h.symm), ih hx.2]

theorem invalidateBlock_concat (init : List Nat) (x : Nat)
    (hne : init ≠ []) (hx : x ∉ init) :
    invalidateBlock ⟨init ++ [x]⟩ x = .ok ⟨init⟩ := by
  cases init with
  | nil => exact absurd rfl hne
  | cons g zs =>
    have hxg : ¬x = g := fun h => hx (h ▸ List.mem_cons_self g zs)
    have hxzs : x ∉ zs := fun h => hx (List.mem_cons_of_mem g h)
    rw [List.cons_append]
    simp only [invalidateBlock]
    rw [if_neg hxg, if_pos (List.mem_append_right zs (List.mem_singleton.mpr rfl)),
      takeWhile_ne_concat x zs hxzs]

theorem getBlockPrevHash_concat (init : List Nat) (x : Nat) (hx : x ∉ init) :
    getBlockPrevHash ⟨init ++ [x]⟩ x = .ok (init.getLastD 0) := by
  rw [getBlockPrevHash]
  rw [show prevOf 0 (NodeSt.mk (init ++ [x])).chain x = some (init.getLastD 0) from
    prevOf_concat x init 0 hx]

theorem invalidateLoop_ok (net : Nat → Bool) (hnet : ∀ j, net j = true) :
    ∀ (count : Nat) (init : List Nat) (x : Nat) (j : Nat),
      (init ++ [x]).Nodup → count ≤ init.length →
      invalidateLoop net count ⟨init ++ [x]⟩ x j
        = (.ok (), ⟨(init ++ [x]).take (init.length + 1 - count)⟩, j + 2 * count) := by
  intro count
  induction count with
  | zero =>
    intro init x j _ _
    rw [invalidateLoop, List.take_of_length_le (by simp)]
    rfl
  | succ c ih =>
    intro init x j hnodup hle
    rcases init.eq_nil_or_concat' with rfl | ⟨init', y, rfl⟩
    · simp at hle
    have hx : x ∉ init' ++ [y] := nodup_concat_not_mem hnodup
    rw [invalidateLoop, callWrap, if_pos (hnet j),
      getBlockPrevHash_concat (init' ++ [y]) x hx, List.getLastD_concat,
      callWrap, if_pos (hnet (j + 1)),
      invalidateBlock_concat (init' ++ [y]) x (by simp) hx]
    show invalidateLoop net c ⟨init' ++ [y]⟩ y (j + 2) = _
    rw [ih init' y (j + 2) (nodup_concat_nodup hnodup) (by simpa using hle)]
    have h1 : (init' ++ [y]).length + 1 - (c + 1) = init'.length + 1 - c := by
      simp only [List.length_append, List.length_cons, List.length_nil]
      omega
    have h2 : ((init' ++ [y]) ++ [x]).take (init'.length + 1 - c)
        = (init' ++ [y]).take (init'.length + 1 - c) :=
      take_append_le (by simp)
    rw [h1, h2]
    have h3 : j + 2 + 2 * c = j + 2 * (c + 1) := by omega
    rw [h3]

theorem invalidateBlocksRun_ok (net : Nat → Bool) (hnet : ∀ j, net j = true)
    (st : NodeSt) (count : Nat) (hnodup : st.chain.Nodup) (hne : st.chain ≠ [])
    (hle : count ≤ chainHeight st) :
    invalidateBlocksRun net st count
      = (.ok (), ⟨st.chain.take (st.chain.length - count)⟩, 1 + 2 * count) := by
  rcases st with ⟨l⟩
  rcases l.eq_nil_or_concat' with rfl | ⟨init, x, rfl⟩
  · exact absurd rfl hne
  rw [invalidateBlocksRun, callWrap, if_pos (hnet 0)]
  rw [show getBestBlockHash ⟨init ++ [x]⟩ = .ok x by
    rw [getBestBlockHash]
    rw [show (NodeSt.mk (init ++ [x])).chain.getLast? = some x from List.getLast?_concat _]]
  show invalidateLoop net count ⟨init ++ [x]⟩ x 1 = _
  rw [invalidateLoop_ok net hnet count init x 1 hnodup
    (by simpa [chainHeight] using hle)]
  have : init.length + 1 - count = (init ++ [x]).length - count := by simp
  rw [this]

/-! ### Unfolding lemmas for the reorg runs -/

theorem reorgRun_inv_err (net : Nat → Bool) (gen : NodeSt → Nat → List Nat × NodeSt)
    (st0 : NodeSt) (count : Nat) (e : RpcErr) (st1 : NodeSt) (j1 : Nat)
    (h : invalidateBlocksRun net st0 count = (.error e, st1, j1)) :
    reorgRun net gen st0 count = (.err e, st1) := by
  unfold reorgRun
  rw [h]

theorem reorgRun_inv_ok (net : Nat → Bool) (gen : NodeSt → Nat → List Nat × NodeSt)
    (st0 : NodeSt) (count : Nat) (st1 : NodeSt) (j1 : Nat)
    (hs : List Nat) (st2 : NodeSt)
    (h : invalidateBlocksRun net st0 count = (.ok (), st1, j1))
    (hgen : gen st1 count = (hs, st2)) :
    reorgRun net gen st0 count =
      if chainHeight st2 = chainHeight st0 then (.ok hs, st2)
      else (.fatal "reorg should not result in height change", st2) := by
  unfold reorgRun
  rw [h]
  show (match gen st1 count with
    | (hs, st2) =>
      if chainHeight st2 = chainHeight st0
      then ((.ok hs : RResult RpcErr (List Nat)), st2)
      else (.fatal "reorg should not result in height change", st2)) = _
  rw [hgen]

theorem reorgEmptyRun_inv_err (net : Nat → Bool)
    (mstep : NodeSt → Except RpcErr (Nat × Nat) × NodeSt)
    (st0 : NodeSt) (count : Nat) (e : RpcErr) (st1 : NodeSt) (j1 : Nat)
    (h : invalidateBlocksRun net st0 count = (.error e, st1, j1)) :
    reorgEmptyRun net mstep st0 count = (.err e, st1) := by
  unfold reorgEmptyRun
  rw [h]

theorem reorgEmptyRun_inv_ok (net : Nat → Bool)
    (mstep : NodeSt → Except RpcErr (Nat × Nat) × NodeSt)
    (st0 : NodeSt) (count : Nat) (st1 : NodeSt) (j1 : Nat)
    (hbs : List (Nat × Nat)) (st2 : NodeSt)
    (h : invalidateBlocksRun net st0 count = (.ok (), st1, j1))
    (hmine : mineEmptyLoop mstep count st1 = (.ok hbs, st2)) :
    reorgEmptyRun net mstep st0 count =
      if chainHeight st2 = chainHeight st0 then (.ok hbs, st2)
      else (.fatal "reorg should not result in height change", st2) := by
  unfold reorgEmptyRun
  rw [h]
  show (match mineEmptyLoop mstep count st1 with
    | (.error e, st2) => ((.err e : RResult RpcErr (List (Nat × Nat))), st2)
    | (.ok hbs, st2) =>
      if chainHeight st2 = chainHeight st0 then (.ok hbs, st2)
      else (.fatal "reorg should not result in height change", st2)) = _
  rw [hmine]

/-- C2: for every count, node state, failure schedule and node
generation/mining behavior, whenever `reorg(count)` (or
`reorg_empty_blocks(count)`) returns `Ok`, the node's chain height equals
the height recorded at the start of the call; and whenever control reaches
the postcondition check with a mismatch (invalidation and remining
completed but the height changed), the outcome is the fatal assertion
`"reorg should not result in height change"` — a panic, never a returned
error. -/
theorem reorg_height_invariant
    (net : Nat → Bool) (gen : NodeSt → Nat → List Nat × NodeSt)
    (mstep : NodeSt → Except RpcErr (Nat × Nat) × NodeSt)
    (st0 : NodeSt) (count : Nat) :
    (∀ hs, (reorgRun net gen st0 count).1 = .ok hs →
      chainHeight (reorgRun net gen st0 count).2 = chainHeight st0) ∧
    (∀ hbs, (reorgEmptyRun net mstep st0 count).1 = .ok hbs →
      chainHeight (reorgEmptyRun net mstep st0 count).2 = chainHeight st0) ∧
    (∀ st1 j1 hs st2, invalidateBlocksRun net st0 count = (.ok (), st1, j1) →
      gen st1 count = (hs, st2) → chainHeight st2 ≠ chainHeight st0 →
      (reorgRun net gen st0 count).1
        = .fatal "reorg should not result in height change") ∧
    (∀ st1 j1 hbs st2, invalidateBlocksRun net st0 count = (.ok (), st1, j1) →
      mineEmptyLoop mstep count st1 = (.ok hbs, st2) →
      chainHeight st2 ≠ chainHeight st0 →
      (reorgEmptyRun net mstep st0 count).1
        = .fatal "reorg should not result in height change") := by
  refine ⟨?_, ?_, ?_, ?_⟩
  · intro hs hok
    rcases hinv : invalidateBlocksRun net st0 count with ⟨r1, st1, j1⟩
    cases r1 with
    | error e =>
      rw [reorgRun_inv_err net gen st0 count e st1 j1 hinv] at hok
      exact absurd hok (by simp)
    | ok u =>
      cases u
      rcases hgen : gen st1 count with ⟨hs2, st2⟩
      rw [reorgRun_inv_ok net gen st0 count st1 j1 hs2 st2 hinv hgen] at hok ⊢
      by_cases hh : chainHeight st2 = chainHeight st0
      · rw [if_pos hh]
        exact hh
      · rw [if_neg hh] at hok
        exact absurd hok (by simp)
  · intro hbs hok
    rcases hinv : invalidateBlocksRun net st0 count with ⟨r1, st1, j1⟩
    cases r1 with
    | error e =>
      rw [reorgEmptyRun_inv_err net mstep st0 count e st1 j1 hinv] at hok
      exact absurd hok (by simp)
    | ok u =>
      cases u
      rcases hmine : mineEmptyLoop mstep count st1 with ⟨r2, st2⟩
      cases r2 with
      | error e =>
        have : reorgEmptyRun net mstep st0 count = (.err e, st2) := by
          unfold reorgEmptyRun
          rw [hinv]
          show (match mineEmptyLoop mstep count st1 with
            | (.error e, st2) => ((.err e : RResult RpcErr (List (Nat × Nat))), st2)
            | (.ok hbs, st2) =>
              if chainHeight st2 = chainHeight st0 then (.ok hbs, st2)
              else (.fatal "reorg should not result in height change", st2)) = _
          rw [hmine]
        rw [this] at hok
        exact absurd hok (by simp)
      | ok hbs2 =>
        rw [reorgEmptyRun_inv_ok net mstep st0 count st1 j1 hbs2 st2 hinv hmine] at hok ⊢
        by_cases hh : chainHeight st2 = chainHeight st0
        · rw [if_pos hh]
          exact hh
        · rw [if_neg hh] at hok
          exact absurd hok (by simp)
  · intro st1 j1 hs st2 hinv hgen hh
    rw [reorgRun_inv_ok net gen st0 count st1 j1 hs st2 hinv hgen, if_neg hh]
  · intro st1 j1 hbs st2 hinv hmine hh
    rw [reorgEmptyRun_inv_ok net mstep st0 count st1 j1 hbs st2 hinv hmine, if_neg hh]

theorem reorg_height_invariant_witness :
    chainHeight (reorgRun (fun _ => true) (genSpec (fun i => 100 + i)) ⟨[10, 11, 12]⟩ 1).2
      = chainHeight ⟨[10, 11, 12]⟩ ∧
    chainHeight (reorgEmptyRun (fun _ => true) (mstepSpec (fun i => 200 + i)) ⟨[10, 11, 12]⟩ 1).2
      = chainHeight ⟨[10, 11, 12]⟩ ∧
    (reorgRun (fun _ => true) (fun st _ => ([], st)) ⟨[10, 11, 12]⟩ 1).1
      = .fatal "reorg should not result in height change" :=
  ⟨(reorg_height_invariant (fun _ => true) (genSpec (fun i => 100 + i))
      (mstepSpec (fun i => 200 + i)) ⟨[10, 11, 12]⟩ 1).1 [102] (by decide),
   (reorg_height_invariant (fun _ => true) (genSpec (fun i => 100 + i))
      (mstepSpec (fun i => 200 + i)) ⟨[10, 11, 12]⟩ 1).2.1 [(2, 202)] (by decide),
   (reorg_height_invariant (fun _ => true) (fun st _ => ([], st))
      (mstepSpec (fun i => 200 + i)) ⟨[10, 11, 12]⟩ 1).2.2.1
     ⟨[10, 11]⟩ 3 [] ⟨[10, 11]⟩ rfl rfl (by decide)⟩

/-! ### The invalidation loop under an injected failure -/

theorem invalidateLoop_fails (net : Nat → Bool) :
    ∀ (i count : Nat) (init : List Nat) (x j : Nat),
      (init ++ [x]).Nodup → i < count → i ≤ init.length →
      (∀ m, m < 2 * i → net (j + m) = true) →
      (net (j + 2 * i) = false ∨
        (net (j + 2 * i) = true ∧ net (j + 2 * i + 1) = false)) →
      ∃ jf, invalidateLoop net count ⟨init ++ [x]⟩ x j
        = (.error .network, ⟨(init ++ [x]).take (init.length + 1 - i)⟩, jf) := by
  intro i
  induction i with
  | zero =>
    intro count init x j hnodup hic _ _ hfail
    obtain ⟨c, rfl⟩ : ∃ c, count = c + 1 := ⟨count - 1, by omega⟩
    simp only [Nat.mul_zero, Nat.add_zero] at hfail
    rcases hfail with hf | ⟨hok, hf⟩
    · refine ⟨j, ?_⟩
      rw [invalidateLoop, callWrap, if_neg (by simp [hf]),
        List.take_of_length_le (by simp)]
    · refine ⟨j + 1, ?_⟩
      rw [invalidateLoop, callWrap, if_pos hok,
        getBlockPrevHash_concat init x (nodup_concat_not_mem hnodup),
        callWrap, if_neg (by simp [hf]),
        List.take_of_length_le (by simp)]
  | succ i' ih =>
    intro count init x j hnodup hic hii hgood hfail
    obtain ⟨c, rfl⟩ : ∃ c, count = c + 1 := ⟨count - 1, by omega⟩
    rcases init.eq_nil_or_concat' with rfl | ⟨init', y, rfl⟩
    · simp at hii
    have hx : x ∉ init' ++ [y] := nodup_concat_not_mem hnodup
    have hn0 : net j = true := by simpa using hgood 0 (by omega)
    have hn1 : net (j + 1) = true := hgood 1 (by omega)
    have hgood' : ∀ m, m < 2 * i' → net (j + 2 + m) = true := by
      intro m hm
      have h := hgood (m + 2) (by omega)
      rw [show j + (m + 2) = j + 2 + m from by omega] at h
      exact h
    have hfail' : net (j + 2 + 2 * i') = false ∨
        (net (j + 2 + 2 * i') = true ∧ net (j + 2 + 2 * i' + 1) = false) := by
      rw [show j + 2 + 2 * i' = j + 2 * (i' + 1) from by omega]
      exact hfail
    obtain ⟨jf, hrec⟩ := ih c init' y (j + 2) (nodup_concat_nodup hnodup)
      (by omega) (by simpa using hii) hgood' hfail'
    refine ⟨jf, ?_⟩
    rw [invalidateLoop, callWrap, if_pos hn0,
      getBlockPrevHash_concat (init' ++ [y]) x hx, List.getLastD_concat,
      callWrap, if_pos hn1,
      invalidateBlock_concat (init' ++ [y]) x (by simp) hx]
    show invalidateLoop net c ⟨init' ++ [y]⟩ y (j + 2)
      = (.error .network,
         ⟨((init' ++ [y]) ++ [x]).take ((init' ++ [y]).length + 1 - (i' + 1))⟩, jf)
    rw [hrec]
    have hlen : (init' ++ [y]).length + 1 - (i' + 1) = init'.length + 1 - i' := by
      simp only [List.length_append, List.length_cons, List.length_nil]
      omega
    rw [hlen,
      show ((init' ++ [y]) ++ [x]).take (init'.length + 1 - i')
          = (init' ++ [y]).take (init'.length + 1 - i') from take_append_le (by simp)]

theorem invalidateBlocksRun_fails (net : Nat → Bool) (st0 : NodeSt)
    (count i : Nat) (hnodup : st0.chain.Nodup) (hne : st0.chain ≠ [])
    (hic : i < count) (hii : i ≤ chainHeight st0)
    (hgood : ∀ m, m < 1 + 2 * i → net m = true)
    (hfail : net (1 + 2 * i) = false ∨
      (net (1 + 2 * i) = true ∧ net (2 + 2 * i) = false)) :
    ∃ jf, invalidateBlocksRun net st0 count
      = (.error .network, ⟨st0.chain.take (st0.chain.length - i)⟩, jf) := by
  rcases st0 with ⟨l⟩
  rcases l.eq_nil_or_concat' with rfl | ⟨init, x, rfl⟩
  · exact absurd rfl hne
  have hgood' : ∀ m, m < 2 * i → net (1 + m) = true := by
    intro m hm
    have h := hgood (m + 1) (by omega)
    rw [show m + 1 = 1 + m from by omega] at h
    exact h
  have hfail' : net (1 + 2 * i) = false ∨
      (net (1 + 2 * i) = true ∧ net (1 + 2 * i + 1) = false) := by
    rcases hfail with hf | ⟨ho, hf⟩
    · exact .inl hf
    · exact .inr ⟨ho, by rw [show 1 + 2 * i + 1 = 2 + 2 * i from by omega]; exact hf⟩
  obtain ⟨jf, hloop⟩ := invalidateLoop_fails net i count init x 1 hnodup hic
    (by simpa [chainHeight] using hii) hgood' hfail'
  refine ⟨jf, ?_⟩
  rw [invalidateBlocksRun, callWrap, if_pos (hgood 0 (by omega))]
  rw [show getBestBlockHash ⟨init ++ [x]⟩ = .ok x by
    rw [getBestBlockHash]
    rw [show (NodeSt.mk (init ++ [x])).chain.getLast? = some x from List.getLast?_concat _]]
  show invalidateLoop net count ⟨init ++ [x]⟩ x 1 = _
  rw [hloop]
  have : init.length + 1 - i = (init ++ [x]).length - i := by simp
  rw [this]

/-- C10: `invalidate_blocks(count)` is not atomic on failure. Each
iteration fetches the current tip's previous hash and then invalidates it;
if the RPC transport fails at iteration `i` (at its `get_block` call or its
`invalidate_block` call), the error is returned while the `i` blocks
invalidated by the earlier iterations stay invalidated (the final chain is
the original truncated by `i`, with no rollback); a `reorg(count)` whose
invalidation phase fails this way returns the error with the chain left `i`
blocks shorter than it started (strictly shorter when `i ≥ 1`). -/
theorem invalidate_blocks_not_atomic
    (st0 : NodeSt) (count i : Nat) (net : Nat → Bool)
    (hnodup : st0.chain.Nodup) (hne : st0.chain ≠ [])
    (hic : i < count) (hii : i ≤ chainHeight st0)
    (hgood : ∀ m, m < 1 + 2 * i → net m = true)
    (hfail : net (1 + 2 * i) = false ∨
      (net (1 + 2 * i) = true ∧ net (2 + 2 * i) = false)) :
    (∃ jf, invalidateBlocksRun net st0 count
        = (.error .network, ⟨st0.chain.take (st0.chain.length - i)⟩, jf)) ∧
    (∀ gen, reorgRun net gen st0 count
        = (.err .network, ⟨st0.chain.take (st0.chain.length - i)⟩) ∧
      chainHeight (reorgRun net gen st0 count).2 = chainHeight st0 - i) ∧
    (1 ≤ i → ∀ gen, chainHeight (reorgRun net gen st0 count).2 < chainHeight st0) := by
  obtain ⟨jf, hrun⟩ := invalidateBlocksRun_fails net st0 count i hnodup hne hic
    hii hgood hfail
  have hlen1 : 1 ≤ st0.chain.length := by
    cases hc : st0.chain with
    | nil => exact absurd hc hne
    | cons a l => simp [hc]
  have hheight : chainHeight ⟨st0.chain.take (st0.chain.length - i)⟩
      = chainHeight st0 - i := by
    simp only [chainHeight, List.length_take]
    have : i ≤ st0.chain.length - 1 := by
      simpa [chainHeight] using hii
    omega
  have hreorg : ∀ gen, reorgRun net gen st0 count
      = (.err .network, ⟨st0.chain.take (st0.chain.length - i)⟩) :=
    fun gen => reorgRun_inv_err net gen st0 count .network _ jf hrun
  refine ⟨⟨jf, hrun⟩, fun gen => ⟨hreorg gen, ?_⟩, fun hi gen => ?_⟩
  · rw [hreorg gen]
    exact hheight
  · rw [hreorg gen]
    have hih : i ≤ chainHeight st0 := hii
    calc chainHeight ⟨st0.chain.take (st0.chain.length - i)⟩
        = chainHeight st0 - i := hheight
      _ < chainHeight st0 := by omega

theorem invalidate_blocks_not_atomic_witness :
    (∃ jf, invalidateBlocksRun (fun j => decide (j ≠ 3)) ⟨[10, 11, 12, 13]⟩ 3
        = (.error .network, ⟨([10, 11, 12, 13] : List Nat).take 3⟩, jf)) ∧
    (∀ gen, reorgRun (fun j => decide (j ≠ 3)) gen ⟨[10, 11, 12, 13]⟩ 3
        = (.err .network, ⟨([10, 11, 12, 13] : List Nat).take 3⟩) ∧
      chainHeight (reorgRun (fun j => decide (j ≠ 3)) gen ⟨[10, 11, 12, 13]⟩ 3).2
        = chainHeight ⟨[10, 11, 12, 13]⟩ - 1) ∧
    (1 ≤ 1 → ∀ gen, chainHeight
        (reorgRun (fun j => decide (j ≠ 3)) gen ⟨[10, 11, 12, 13]⟩ 3).2
      < chainHeight ⟨[10, 11, 12, 13]⟩) :=
  invalidate_blocks_not_atomic ⟨[10, 11, 12, 13]⟩ 3 1 (fun j => decide (j ≠ 3))
    (by decide) (by decide) (by decide) (by decide)
    (by decide) (.inl (by decide))

/-! ## Checkpoint builder (`make_checkpoint_tip`, lib.rs 317-331) -/

structure BlockId where
  height : Nat
  hash : Nat
deriving DecidableEq, Repr

/-- Modelled from the spec: `CheckPoint` (from `bdk_chain::local_chain`,
whose sources are not under verification here) is "a back-linked node
`{ height, hash, previous: optional reference to the checkpoint at
height-1 }`". -/
inductive CheckPoint where
  | node (id : BlockId) (prev : Option CheckPoint)

/-- Number of nodes along the back-link chain. -/
def CheckPoint.size : CheckPoint → Nat
  | .node _ none => 1
  | .node _ (some cp) => 1 + cp.size

/-- Resolve a height to a hash by walking the back-links from the tip. -/
def CheckPoint.resolve : CheckPoint → Nat → Option Nat
  | .node id none, h => if id.height = h then some id.hash else none
  | .node id (some cp), h => if id.height = h then some id.hash else cp.resolve h

/-- Fold block ids onto an existing (optional) checkpoint, each new id
becoming the new tip back-linked to the previous one. -/
def CheckPoint.extend (cp? : Option CheckPoint) : List BlockId → Option CheckPoint
  | [] => cp?
  | id :: rest => CheckPoint.extend (some (.node id cp?)) rest

/-- Modelled from the spec: `CheckPoint::from_block_ids` "folds this
sequence into a back-linked list rooted at the highest resolved height,
with each node pointing to its predecessor", and fails on an empty
sequence (the crate then panics through `.expect("must craft tip")`). -/
def CheckPoint.fromBlockIds (ids : List BlockId) : Option CheckPoint :=
  CheckPoint.extend none ids

/-- `(0_u32..).map_while(|height| get_block_hash(height).ok().map(...))`
(lib.rs 318-329): ascending heights from `0`, stopping at the first height
the node cannot resolve. On the node model `getblockhash h` succeeds
exactly for `h < chain.length`; the lazy iterator is realized as a fueled
loop, instantiated with fuel past the chain length. -/
def mapWhileHashes (st : NodeSt) : Nat → Nat → List BlockId
  | 0, _ => []
  | fuel + 1, h =>
    match st.chain[h]? with
    | none => []
    | some hs => ⟨h, hs⟩ :: mapWhileHashes st fuel (h + 1)

/-- `TestEnv::make_checkpoint_tip`: build the checkpoint list over all
resolvable heights; the trailing `.expect("must craft tip")` panics when
the sequence was empty (height 0 unresolvable). -/
def makeCheckpointTip (st : NodeSt) : RResult Unit CheckPoint :=
  match CheckPoint.fromBlockIds (mapWhileHashes st (st.chain.length + 1) 0) with
  | some cp => .ok cp
  | none => .fatal "must craft tip"

/-! ### Lemmas for the checkpoint builder -/

theorem mapWhileHashes_length (st : NodeSt) :
    ∀ fuel h, st.chain.length ≤ h + fuel →
      (mapWhileHashes st fuel h).length = st.chain.length - h := by
  intro fuel
  induction fuel with
  | zero =>
    intro h hle
    rw [mapWhileHashes]
    simp only [List.length_nil]
    omega
  | succ f ih =>
    intro h hle
    rw [mapWhileHashes]
    cases hget : st.chain[h]? with
    | none =>
      have : st.chain.length ≤ h := by
        by_contra hlt
        push_neg at hlt
        exact absurd hget (by simp [List.getElem?_eq_getElem hlt])
      simp only [List.length_nil]
      omega
    | some hs =>
      have hlt : h < st.chain.length := by
        by_contra hge
        push_neg at hge
        rw [List.getElem?_eq_none hge] at hget
        exact Option.noConfusion hget
      simp only [List.length_cons]
      rw [ih (h + 1) (by omega)]
      omega

theorem mapWhileHashes_height_ge (st : NodeSt) :
    ∀ fuel h id, id ∈ mapWhileHashes st fuel h → h ≤ id.height := by
  intro fuel
  induction fuel with
  | zero => intro h id hmem; rw [mapWhileHashes] at hmem; simp at hmem
  | succ f ih =>
    intro h id hmem
    rw [mapWhileHashes] at hmem
    cases hget : st.chain[h]? with
    | none => rw [hget] at hmem; simp at hmem
    | some hs =>
      rw [hget] at hmem
      rcases List.mem_cons.mp hmem with rfl | htail
      · exact le_refl _
      · exact le_of_lt (lt_of_lt_of_le (Nat.lt_succ_self h) (ih (h + 1) id htail))

theorem extend_size : ∀ (ids : List BlockId) (c : CheckPoint) (cp : CheckPoint),
    CheckPoint.extend (some c) ids = some cp → cp.size = c.size + ids.length := by
  intro ids
  induction ids with
  | nil =>
    intro c cp h
    rw [CheckPoint.extend] at h
    cases h
    simp
  | cons id rest ih =>
    intro c cp h
    rw [CheckPoint.extend] at h
    have := ih (.node id (some c)) cp h
    rw [this, CheckPoint.size]
    simp only [List.length_cons]
    omega

theorem extend_resolve_skip :
    ∀ (ids : List BlockId) (c : CheckPoint) (cp : CheckPoint) (h : Nat),
      (∀ id ∈ ids, id.height ≠ h) →
      CheckPoint.extend (some c) ids = some cp → cp.resolve h = c.resolve h := by
  intro ids
  induction ids with
  | nil =>
    intro c cp h _ he
    rw [CheckPoint.extend] at he
    cases he
    rfl
  | cons id rest ih =>
    intro c cp h hne he
    rw [CheckPoint.extend] at he
    have := ih (.node id (some c)) cp h
      (fun i hi => hne i (List.mem_cons_of_mem id hi)) he
    rw [this, CheckPoint.resolve,
      if_neg (hne id (List.mem_cons_self id rest))]

/-- C5: `make_checkpoint_tip()` queries hashes at ascending heights from 0
and stops one past the tip; on a nonempty chain it returns a checkpoint
chain whose node count is `chain_height + 1` and which resolves height 0 to
the genesis hash; when height 0 itself is unresolvable (empty chain) it
panics (`expect("must craft tip")`) instead of returning an error. -/
theorem make_checkpoint_tip_spec (st : NodeSt) :
    if st.chain = [] then makeCheckpointTip st = .fatal "must craft tip"
    else ∃ cp, makeCheckpointTip st = .ok cp ∧
      cp.size = chainHeight st + 1 ∧
      cp.resolve 0 = st.chain.head? := by
  by_cases hnil : st.chain = []
  · rw [if_pos hnil]
    rw [makeCheckpointTip, mapWhileHashes]
    rw [show st.chain[0]? = none by rw [hnil]; rfl]
    rfl
  · rw [if_neg hnil]
    obtain ⟨g, rest, hchain⟩ : ∃ g rest, st.chain = g :: rest := by
      cases hc : st.chain with
      | nil => exact absurd hc hnil
      | cons a l => exact ⟨a, l, rfl⟩
    have hlen1 : 1 ≤ st.chain.length := by rw [hchain]; simp
    have hget0 : st.chain[0]? = some g := by rw [hchain]; simp
    -- unfold one step of the map_while
    have hmw : mapWhileHashes st (st.chain.length + 1) 0
        = ⟨0, g⟩ :: mapWhileHashes st st.chain.length 1 := by
      rw [mapWhileHashes, hget0]
    have htail := mapWhileHashes_length st st.chain.length 1 (by omega)
    cases hext : CheckPoint.extend (some (.node ⟨0, g⟩ none))
        (mapWhileHashes st st.chain.length 1) with
    | none =>
      exfalso
      revert hext
      generalize (mapWhileHashes st st.chain.length 1) = ids
      generalize (CheckPoint.node ⟨0, g⟩ none) = c
      induction ids generalizing c with
      | nil => intro h; rw [CheckPoint.extend] at h; exact Option.noConfusion h
      | cons id rest2 ih2 =>
        intro h
        rw [CheckPoint.extend] at h
        exact ih2 (.node id (some c)) h
    | some cp =>
      refine ⟨cp, ?_, ?_, ?_⟩
      · rw [makeCheckpointTip, hmw, CheckPoint.fromBlockIds, CheckPoint.extend, hext]
      · rw [extend_size _ _ _ hext, htail, CheckPoint.size]
        simp only [chainHeight]
        omega
      · rw [extend_resolve_skip _ _ _ 0
          (fun id hid => by
            have := mapWhileHashes_height_ge st st.chain.length 1 id hid
            omega) hext]
        rw [CheckPoint.resolve, if_pos rfl, hchain]
        rfl

/-! ## Sync pollers (lib.rs 214-257)

Both pollers are blocking loops: `while start.elapsed() < timeout`, probe
the indexer, sleep 200 ms, retry. Times are in milliseconds; `elapsed k` is
the `start.elapsed()` reading at the `k`-th loop test. Because every
iteration sleeps 200 ms, `200 * k ≤ elapsed k`, which bounds the number of
iterations; the loops are realized with fuel `timeout + 1`, enough under
that bound. -/

/-- Outcome of one `transaction_get(&txid)` probe: `found` is `Ok(tx)`;
both error kinds are `Err(_)` — the code only tests `.is_ok()`. -/
inductive TxProbe where
  | found
  | notFound
  | otherErr
deriving DecidableEq, Repr

/-- Outcome of one block-poller iteration (`trigger()?`, `ping()?`,
`block_headers_pop()?`): either some call returned `Err` (propagated by
`?`), or all succeeded and the popped queue head was `Some`/`None`. -/
inductive BlockProbe where
  | err (e : RpcErr)
  | header (found : Bool)
deriving DecidableEq, Repr

/-- Result of a poller run: success at iteration `k`, an error propagated
at iteration `k`, or the timeout error. -/
inductive PollResult where
  | ok (k : Nat)
  | err (e : RpcErr) (k : Nat)
  | timedOut
deriving DecidableEq, Repr

/-- The loop of `wait_until_electrum_sees_txid` (lib.rs 246-252):
`if transaction_get(&txid).is_ok() { return Ok(()) }` — every error,
not-found or otherwise, is swallowed and retried. -/
def waitTxidAux (elapsed : Nat → Nat) (timeout : Nat) (probe : Nat → TxProbe) :
    Nat → Nat → PollResult
  | 0, _ => .timedOut
  | fuel + 1, k =>
    if elapsed k < timeout then
      match probe k with
      | .found => .ok k
      | _ => waitTxidAux elapsed timeout probe fuel (k + 1)
    else .timedOut

/-- `TestEnv::wait_until_electrum_sees_txid` (lib.rs 238-257). -/
def waitUntilSeesTxid (elapsed : Nat → Nat) (timeout : Nat)
    (probe : Nat → TxProbe) : PollResult :=
  waitTxidAux elapsed timeout probe (timeout + 1) 0

/-- The loop of `wait_until_electrum_sees_block` (lib.rs 221-229): any
error from `trigger`/`ping`/`block_headers_pop` propagates immediately via
`?`; a popped header returns success. -/
def waitBlockAux (elapsed : Nat → Nat) (timeout : Nat)
    (probe : Nat → BlockProbe) : Nat → Nat → PollResult
  | 0, _ => .timedOut
  | fuel + 1, k =>
    if elapsed k < timeout then
      match probe k with
      | .err e => .err e k
      | .header true => .ok k
      | .header false => waitBlockAux elapsed timeout probe fuel (k + 1)
    else .timedOut

/-- `TestEnv::wait_until_electrum_sees_block` (lib.rs 216-234):
`block_headers_subscribe()?` first (its error propagates before the loop),
then the poll loop. -/
def waitUntilSeesBlock (subscribeErr : Option RpcErr) (elapsed : Nat → Nat)
    (timeout : Nat) (probe : Nat → BlockProbe) : PollResult :=
  match subscribeErr with
  | some e => .err e 0
  | none => waitBlockAux elapsed timeout probe (timeout + 1) 0

/-! ### Poller lemmas -/

theorem waitTxidAux_ne_err (elapsed : Nat → Nat) (timeout : Nat)
    (probe : Nat → TxProbe) :
    ∀ fuel k e k', waitTxidAux elapsed timeout probe fuel k ≠ .err e k' := by
  intro fuel
  induction fuel with
  | zero => intro k e k'; rw [waitTxidAux]; exact fun h => PollResult.noConfusion h
  | succ f ih =>
    intro k e k'
    rw [waitTxidAux]
    by_cases hk : elapsed k < timeout
    · rw [if_pos hk]
      cases probe k with
      | found => exact fun h => PollResult.noConfusion h
      | notFound => exact ih (k + 1) e k'
      | otherErr => exact ih (k + 1) e k'
    · rw [if_neg hk]
      exact fun h => PollResult.noConfusion h

theorem waitTxidAux_timeout (elapsed : Nat → Nat) (timeout : Nat)
    (probe : Nat → TxProbe)
    (hnever : ∀ m, elapsed m < timeout → probe m ≠ .found) :
    ∀ fuel k, waitTxidAux elapsed timeout probe fuel k = .timedOut := by
  intro fuel
  induction fuel with
  | zero => intro k; rw [waitTxidAux]
  | succ f ih =>
    intro k
    rw [waitTxidAux]
    by_cases hk : elapsed k < timeout
    · rw [if_pos hk]
      cases hp : probe k with
      | found => exact absurd hp (hnever k hk)
      | notFound => exact ih (k + 1)
      | otherErr => exact ih (k + 1)
    · rw [if_neg hk]

theorem waitTxidAux_success (elapsed : Nat → Nat) (timeout : Nat)
    (probe : Nat → TxProbe) (hmono : Monotone elapsed) :
    ∀ fuel k n, k ≤ n → n + 1 - k ≤ fuel → elapsed n < timeout →
      probe n = .found →
      ∃ k', waitTxidAux elapsed timeout probe fuel k = .ok k' ∧
        elapsed k' < timeout ∧ k' ≤ n := by
  intro fuel
  induction fuel with
  | zero => intro k n hkn hf _ _; omega
  | succ f ih =>
    intro k n hkn hf hn hp
    have hk : elapsed k < timeout := lt_of_le_of_lt (hmono hkn) hn
    rw [waitTxidAux, if_pos hk]
    cases hpk : probe k with
    | found => exact ⟨k, rfl, hk, hkn⟩
    | notFound =>
      have hne : k ≠ n := fun h => by rw [h, hp] at hpk; exact TxProbe.noConfusion hpk
      obtain ⟨k', h1, h2, h3⟩ := ih (k + 1) n (by omega) (by omega) hn hp
      exact ⟨k', h1, h2, h3⟩
    | otherErr =>
      have hne : k ≠ n := fun h => by rw [h, hp] at hpk; exact TxProbe.noConfusion hpk
      obtain ⟨k', h1, h2, h3⟩ := ih (k + 1) n (by omega) (by omega) hn hp
      exact ⟨k', h1, h2, h3⟩

theorem waitBlockAux_timeout (elapsed : Nat → Nat) (timeout : Nat)
    (probe : Nat → BlockProbe)
    (hnever : ∀ m, elapsed m < timeout →
      probe m ≠ .header true ∧ ∀ e, probe m ≠ .err e) :
    ∀ fuel k, waitBlockAux elapsed timeout probe fuel k = .timedOut := by
  intro fuel
  induction fuel with
  | zero => intro k; rw [waitBlockAux]
  | succ f ih =>
    intro k
    rw [waitBlockAux]
    by_cases hk : elapsed k < timeout
    · rw [if_pos hk]
      cases hp : probe k with
      | err e => exact absurd hp ((hnever k hk).2 e)
      | header found =>
        cases found with
        | true => exact absurd hp (hnever k hk).1
        | false => exact ih (k + 1)
    · rw [if_neg hk]

theorem waitBlockAux_success (elapsed : Nat → Nat) (timeout : Nat)
    (probe : Nat → BlockProbe) (hmono : Monotone elapsed) :
    ∀ fuel k n, k ≤ n → n + 1 - k ≤ fuel → elapsed n < timeout →
      probe n = .header true →
      (∀ j, k ≤ j → j < n → ∀ e, probe j ≠ .err e) →
      ∃ k', waitBlockAux elapsed timeout probe fuel k = .ok k' ∧
        elapsed k' < timeout ∧ k' ≤ n := by
  intro fuel
  induction fuel with
  | zero => intro k n hkn hf _ _ _; omega
  | succ f ih =>
    intro k n hkn hf hn hp hnoerr
    have hk : elapsed k < timeout := lt_of_le_of_lt (hmono hkn) hn
    rw [waitBlockAux, if_pos hk]
    cases hpk : probe k with
    | err e =>
      exfalso
      rcases eq_or_lt_of_le hkn with rfl | hlt
      · rw [hp] at hpk; exact BlockProbe.noConfusion hpk
      · exact hnoerr k (le_refl k) hlt e hpk
    | header found =>
      cases found with
      | true => exact ⟨k, rfl, hk, hkn⟩
      | false =>
        have hne : k ≠ n := fun h => by
          rw [h, hp] at hpk
          simp at hpk
        obtain ⟨k', h1, h2, h3⟩ := ih (k + 1) n (by omega) (by omega) hn hp
          (fun j hj1 hj2 => hnoerr j (by omega) hj2)
        exact ⟨k', h1, h2, h3⟩

theorem waitBlockAux_propagates (elapsed : Nat → Nat) (timeout : Nat)
    (probe : Nat → BlockProbe) (hmono : Monotone elapsed) :
    ∀ fuel k n e, k ≤ n → n + 1 - k ≤ fuel → elapsed n < timeout →
      probe n = .err e →
      (∀ j, k ≤ j → j < n → probe j = .header false) →
      waitBlockAux elapsed timeout probe fuel k = .err e n := by
  intro fuel
  induction fuel with
  | zero => intro k n e hkn hf _ _ _; omega
  | succ f ih =>
    intro k n e hkn hf hn hp hbefore
    have hk : elapsed k < timeout := lt_of_le_of_lt (hmono hkn) hn
    rw [waitBlockAux, if_pos hk]
    rcases eq_or_lt_of_le hkn with rfl | hlt
    · rw [hp]
    · rw [hbefore k (le_refl k) hlt]
      exact ih (k + 1) n e (by omega) (by omega) hn hp
        (fun j hj1 hj2 => hbefore j (by omega) hj2)

theorem mono200 : Monotone (fun k : Nat => 200 * k) :=
  fun _ _ hab => Nat.mul_le_mul_left 200 hab

theorem sleep200 : ∀ m, 200 * m ≤ (fun k : Nat => 200 * k) m :=
  fun _ => le_refl _

/-- C6 counterexample: a trace on which every `transaction_get` probe fails
with an RPC error that is NOT the "not found" condition (e.g. a connection
error). The claim says such errors are propagated immediately; the code
only tests `.is_ok()`, swallows the error, retries, and eventually returns
the timeout error instead. -/
theorem txid_error_not_propagated_cex :
    waitUntilSeesTxid (fun k => 200 * k) 1000 (fun _ => .otherErr)
      = .timedOut := by
  decide

/-- C6 amended: `wait_until_electrum_sees_block` propagates any indexer RPC
error immediately (the first erroring iteration inside the window returns
that error); `wait_until_electrum_sees_txid` treats EVERY
`transaction_get` error — not only the "not found" condition — as
not-yet-satisfied and retries it: the transaction poller never returns an
RPC error. -/
theorem poller_error_handling
    (elapsed : Nat → Nat) (timeout : Nat) (hmono : Monotone elapsed)
    (hsleep : ∀ m, 200 * m ≤ elapsed m) :
    (∀ (probe : Nat → BlockProbe) (n : Nat) (e : RpcErr),
      elapsed n < timeout → probe n = .err e →
      (∀ j, j < n → probe j = .header false) →
      waitUntilSeesBlock none elapsed timeout probe = .err e n) ∧
    (∀ (probe : Nat → TxProbe) (e : RpcErr) (k : Nat),
      waitUntilSeesTxid elapsed timeout probe ≠ .err e k) := by
  constructor
  · intro probe n e hn hp hbefore
    have hfuel : n + 1 - 0 ≤ timeout + 1 := by
      have h1 := hsleep n
      omega
    exact waitBlockAux_propagates elapsed timeout probe hmono (timeout + 1) 0 n e
      (Nat.zero_le n) hfuel hn hp (fun j _ hj2 => hbefore j hj2)
  · intro probe e k
    exact waitTxidAux_ne_err elapsed timeout probe (timeout + 1) 0 e k

theorem poller_error_handling_witness :
    waitUntilSeesBlock none (fun k => 200 * k) 1000
        (fun j => if j = 2 then .err .network else .header false)
      = .err .network 2 ∧
    waitUntilSeesTxid (fun k => 200 * k) 1000 (fun _ => .otherErr)
      ≠ .err .network 0 :=
  ⟨(poller_error_handling (fun k => 200 * k) 1000 mono200 sleep200).1
      (fun j => if j = 2 then .err .network else .header false) 2 .network
      (by decide) (by decide) (by decide),
   (poller_error_handling (fun k => 200 * k) 1000 mono200 sleep200).2
      (fun _ => .otherErr) .network 0⟩

/-- C7: for every timeout, monotone clock with 200 ms sleeps between polls,
and trace of probe outcomes, each poller returns success at an iteration
strictly inside the timeout window whenever the awaited condition becomes
true at some iteration inside the window (with no earlier propagated error,
for the block poller), and returns the timeout error whenever the condition
never becomes true inside the window. -/
theorem poller_timeout_contract
    (elapsed : Nat → Nat) (timeout : Nat) (hmono : Monotone elapsed)
    (hsleep : ∀ m, 200 * m ≤ elapsed m) :
    (∀ (probe : Nat → TxProbe) (n : Nat), elapsed n < timeout →
      probe n = .found →
      ∃ k, waitUntilSeesTxid elapsed timeout probe = .ok k ∧
        elapsed k < timeout ∧ k ≤ n) ∧
    (∀ (probe : Nat → TxProbe), (∀ m, elapsed m < timeout → probe m ≠ .found) →
      waitUntilSeesTxid elapsed timeout probe = .timedOut) ∧
    (∀ (probe : Nat → BlockProbe) (n : Nat), elapsed n < timeout →
      probe n = .header true → (∀ j, j < n → ∀ e, probe j ≠ .err e) →
      ∃ k, waitUntilSeesBlock none elapsed timeout probe = .ok k ∧
        elapsed k < timeout ∧ k ≤ n) ∧
    (∀ (probe : Nat → BlockProbe),
      (∀ m, elapsed m < timeout →
        probe m ≠ .header true ∧ ∀ e, probe m ≠ .err e) →
      waitUntilSeesBlock none elapsed timeout probe = .timedOut) := by
  refine ⟨?_, ?_, ?_, ?_⟩
  · intro probe n hn hp
    have hfuel : n + 1 - 0 ≤ timeout + 1 := by
      have h1 := hsleep n
      omega
    exact waitTxidAux_success elapsed timeout probe hmono (timeout + 1) 0 n
      (Nat.zero_le n) hfuel hn hp
  · intro probe hnever
    exact waitTxidAux_timeout elapsed timeout probe hnever (timeout + 1) 0
  · intro probe n hn hp hnoerr
    have hfuel : n + 1 - 0 ≤ timeout + 1 := by
      have h1 := hsleep n
      omega
    exact waitBlockAux_success elapsed timeout probe hmono (timeout + 1) 0 n
      (Nat.zero_le n) hfuel hn hp (fun j _ hj2 => hnoerr j hj2)
  · intro probe hnever
    exact waitBlockAux_timeout elapsed timeout probe hnever (timeout + 1) 0

theorem poller_timeout_contract_witness :
    (∃ k, waitUntilSeesTxid (fun k => 200 * k) 1000
        (fun j => if 2 ≤ j then .found else .notFound) = .ok k ∧
      200 * k < 1000 ∧ k ≤ 2) ∧
    waitUntilSeesTxid (fun k => 200 * k) 1000 (fun _ => .notFound)
      = .timedOut ∧
    (∃ k, waitUntilSeesBlock none (fun k => 200 * k) 1000
        (fun j => .header (decide (3 ≤ j))) = .ok k ∧
      200 * k < 1000 ∧ k ≤ 3) ∧
    waitUntilSeesBlock none (fun k => 200 * k) 1000
        (fun _ => .header false)
      = .timedOut :=
  ⟨(poller_timeout_contract (fun k => 200 * k) 1000 mono200 sleep200).1
      (fun j => if 2 ≤ j then .found else .notFound) 2 (by decide) (by decide),
   (poller_timeout_contract (fun k => 200 * k) 1000 mono200 sleep200).2.1
      (fun _ => .notFound) (fun _ _ h => TxProbe.noConfusion h),
   (poller_timeout_contract (fun k => 200 * k) 1000 mono200 sleep200).2.2.1
      (fun j => .header (decide (3 ≤ j))) 3 (by decide) (by decide)
      (fun _ _ e h => BlockProbe.noConfusion h),
   (poller_timeout_contract (fun k => 200 * k) 1000 mono200 sleep200).2.2.2
      (fun _ => .header false)
      (fun _ _ => ⟨fun h => Bool.noConfusion (BlockProbe.header.inj h),
        fun _ h => BlockProbe.noConfusion h⟩)⟩
